import Mathlib

/-!
Formal verification of the deterministic numerical core of the
certifiable-training library (C sources under `src/`).

The C code is shallowly embedded: machine integers become `Int` (for the
signed `int32_t`/`int64_t` carriers) or `ℕ` (for the unsigned `uint32_t`/
`uint64_t` carriers) with explicit reductions `% 2^32` / `% 2^64` wherever
the C computation wraps, saturation written out exactly as the C tests do
it, fallible operations return an error code alongside the new state, and
nullable pointer arguments become `Option`.  Signed-overflow of an
intermediate C expression (which the C standard leaves undefined) is
modelled as two's-complement wraparound via `wrap64`; every concrete
counterexample below is chosen so that no such wraparound actually fires,
so the modelled trace agrees with any conforming compiler.
-/

/-! ## Error codes and fault flags (`include/ct_types.h`) -/

inductive ct_error where
  | CT_OK
  | CT_ERR_NULL
  | CT_ERR_DIMENSION
  | CT_ERR_OVERFLOW
  | CT_ERR_UNDERFLOW
  | CT_ERR_DIV_ZERO
  | CT_ERR_DOMAIN
  | CT_ERR_CONFIG
  | CT_ERR_STATE
  | CT_ERR_MEMORY
  | CT_ERR_HASH
  | CT_ERR_FAULT
  deriving DecidableEq, Repr

open ct_error

/-- The five sticky fault bits of `ct_fault_flags_t`. -/
structure ct_fault_flags where
  overflow : Bool := false
  underflow : Bool := false
  div_zero : Bool := false
  domain : Bool := false
  grad_floor : Bool := false
  deriving DecidableEq, Repr

/-- `ct_has_fault`: disjunction of the first four bits (`grad_floor` is advisory). -/
def ct_has_fault (f : ct_fault_flags) : Bool :=
  f.overflow || f.underflow || f.div_zero || f.domain

/-- `ct_clear_faults` resets every bit. -/
def ct_clear_faults : ct_fault_flags := {}

/-! ## Machine-integer bounds -/

def INT32_MAX : Int := 2147483647
def INT32_MIN : Int := -2147483648
def INT64_MAX : Int := 9223372036854775807
def INT64_MIN : Int := -9223372036854775808

/-- Reinterpretation of an arbitrary integer as a two's-complement `int64_t`.
Used only to model C expressions whose intermediate would overflow. -/
def wrap64 (z : Int) : Int := (z + 2 ^ 63) % 2 ^ 64 - 2 ^ 63

/-! ## DVM primitives (`src/dvm/primitives.c`)

The fault-flag pointer is modelled as a threaded record; the claims under
verification always supply one, so the `faults == NULL` guards of the C
code are not exercised and are dropped from the embedding. -/

/-- `dvm_clamp32`: saturate a 64-bit value to the `int32_t` range. -/
def dvm_clamp32 (x : Int) (f : ct_fault_flags) : Int × ct_fault_flags :=
  if x > INT32_MAX then (INT32_MAX, {f with overflow := true})
  else if x < INT32_MIN then (INT32_MIN, {f with underflow := true})
  else (x, f)

/-- `dvm_div_int32`: `b == 0` returns 0 with `div_zero`; otherwise the C
quotient `a / b`, which truncates toward zero (`Int.tdiv`). -/
def dvm_div_int32 (a b : Int) (f : ct_fault_flags) : Int × ct_fault_flags :=
  if b = 0 then (0, {f with div_zero := true})
  else (Int.tdiv a b, f)

/-- `dvm_round_shift_rne`: arithmetic shift by `shift` bits with
round-to-nearest-ties-to-even, then clamp.  On an `int64_t`,
`x & ((1 << shift) - 1)` is the (nonnegative) low-bits residue `x % 2^shift`
and `x >> shift` is the floor quotient `x / 2^shift`; `quotient & 1` is
`quotient % 2`. -/
def dvm_round_shift_rne (x : Int) (shift : ℕ) (f : ct_fault_flags) :
    Int × ct_fault_flags :=
  if shift > 62 then (0, {f with domain := true})
  else if shift = 0 then dvm_clamp32 x f
  else
    let halfway : Int := 2 ^ (shift - 1)
    let fraction : Int := x % 2 ^ shift
    let quotient : Int := x / 2 ^ shift
    let result : Int :=
      if fraction < halfway then quotient
      else if fraction > halfway then quotient + 1
      else quotient + quotient % 2
    dvm_clamp32 result f

/-- Modelled from the spec's words (§4.2, §8.2): the integer nearest to
`x / 2^k`, ties going to the even neighbour.  With `q = ⌊x/2^k⌋` and
`r = x mod 2^k` the value is `q + r/2^k`; it rounds down when `r/2^k < 1/2`,
up when `> 1/2`, and to the even one of `q`, `q+1` on a tie. -/
def rne_nearest (x : Int) (k : ℕ) : Int :=
  let den : Int := 2 ^ k
  let q : Int := x / den
  let r : Int := x % den
  if 2 * r < den then q
  else if 2 * r > den then q + 1
  else if q % 2 = 0 then q else q + 1

/-- C4. For every `x : i64` and `1 ≤ k ≤ 62`, `dvm_round_shift_rne x k`
computes the clamped round-to-nearest-ties-to-even of `x / 2^k` (flags
included), and the eight Q16.16 tie vectors `1.5, 2.5, 3.5, 4.5, 5.5,
-1.5, -2.5, -3.5` at `k = 16` produce `2, 2, 4, 4, 6, -2, -2, -4` with no
fault flag set. -/
theorem claim_C4 :
    (∀ (x : Int) (k : ℕ) (f : ct_fault_flags), 1 ≤ k → k ≤ 62 →
      dvm_round_shift_rne x k f = dvm_clamp32 (rne_nearest x k) f) ∧
    (∀ f : ct_fault_flags,
      dvm_round_shift_rne 98304 16 f = (2, f) ∧
      dvm_round_shift_rne 163840 16 f = (2, f) ∧
      dvm_round_shift_rne 229376 16 f = (4, f) ∧
      dvm_round_shift_rne 294912 16 f = (4, f) ∧
      dvm_round_shift_rne 360448 16 f = (6, f) ∧
      dvm_round_shift_rne (-98304) 16 f = (-2, f) ∧
      dvm_round_shift_rne (-163840) 16 f = (-2, f) ∧
      dvm_round_shift_rne (-229376) 16 f = (-4, f)) := by
  constructor
  · intro x k f hk1 hk62
    unfold dvm_round_shift_rne rne_nearest
    have hkne : ¬ k = 0 := by omega
    have hk62' : ¬ k > 62 := by omega
    simp only [if_neg hk62', if_neg hkne]
    have hden : (2 : Int) ^ k = 2 * 2 ^ (k - 1) := by
      rw [← pow_succ']
      congr 1
      omega
    have hhalf : (0 : Int) < 2 ^ (k - 1) := by positivity
    set q : Int := x / 2 ^ k with hq
    set r : Int := x % 2 ^ k with hr
    have hq2 : q % 2 = 0 ∨ q % 2 = 1 := Int.emod_two_eq_zero_or_one q
    by_cases h1 : r < 2 ^ (k - 1)
    · rw [if_pos h1, if_pos (by omega : 2 * r < 2 ^ k)]
    · rw [if_neg h1]
      by_cases h2 : r > 2 ^ (k - 1)
      · rw [if_pos h2, if_neg (by omega : ¬ 2 * r < 2 ^ k),
          if_pos (by omega : 2 * r > 2 ^ k)]
      · rw [if_neg h2, if_neg (by omega : ¬ 2 * r < 2 ^ k),
          if_neg (by omega : ¬ 2 * r > 2 ^ k)]
        rcases hq2 with h | h
        · rw [if_pos h, h]
          norm_num
        · rw [if_neg (by omega), h]
  · intro f
    refine ⟨?_, ?_, ?_, ?_, ?_, ?_, ?_, ?_⟩ <;>
      simp [dvm_round_shift_rne, dvm_clamp32, INT32_MAX, INT32_MIN]

/-- Witness for C4 at `x = 98304`, `k = 16`. -/
theorem claim_C4_witness :
    dvm_round_shift_rne 98304 16 {} = dvm_clamp32 (rne_nearest 98304 16) {} :=
  claim_C4.1 98304 16 {} (by decide) (by decide)

/-- C7 (supporting theorem for the code bug).  `dvm_div_int32` returns 0
with `div_zero` for `b = 0`, and for every other in-range pair except
`(INT32_MIN, -1)` returns the quotient truncated toward zero, in `int32_t`
range, with the flags untouched.  At the excluded pair the mathematical
truncated quotient is `2^31`, which does not fit in `int32_t` — in the C
source this division overflows and its behaviour is undefined. -/
theorem claim_C7 :
    (∀ (a : Int) (f : ct_fault_flags),
      dvm_div_int32 a 0 f = (0, {f with div_zero := true})) ∧
    (∀ (a b : Int) (f : ct_fault_flags),
      INT32_MIN ≤ a → a ≤ INT32_MAX → INT32_MIN ≤ b → b ≤ INT32_MAX →
      b ≠ 0 → ¬(a = INT32_MIN ∧ b = -1) →
      dvm_div_int32 a b f = (Int.tdiv a b, f) ∧
      INT32_MIN ≤ Int.tdiv a b ∧ Int.tdiv a b ≤ INT32_MAX) ∧
    Int.tdiv INT32_MIN (-1) = 2147483648 ∧ INT32_MAX < 2147483648 := by
  refine ⟨?_, ?_, by decide, by decide⟩
  · intro a f
    simp [dvm_div_int32]
  · intro a b f ha1 ha2 hb1 hb2 hb0 hex
    refine ⟨by simp [dvm_div_int32, hb0], ?_, ?_⟩ <;>
    · rcases lt_trichotomy b 0 with hbneg | hbz | hbpos
      all_goals try omega
      all_goals
        rcases eq_or_ne b 1 with rfl | hb1'
        · simp [Int.tdiv_one]; omega
        · rcases eq_or_ne b (-1) with rfl | hbm1
          · have hamin : a ≠ INT32_MIN := by
              intro h; exact hex ⟨h, rfl⟩
            rw [show ((-1 : Int)) = -(1 : Int) by norm_num, Int.tdiv_neg,
              Int.tdiv_one]
            unfold INT32_MIN at *
            unfold INT32_MAX at *
            omega
          · have habs : (Int.tdiv a b).natAbs = a.natAbs / b.natAbs :=
              Int.natAbs_tdiv a b
            have hb2' : 2 ≤ b.natAbs := by
              unfold INT32_MIN INT32_MAX at *
              omega
            have hale : a.natAbs ≤ 2 ^ 31 := by
              unfold INT32_MIN INT32_MAX at *
              omega
            have hqle : a.natAbs / b.natAbs ≤ 2 ^ 30 := by
              calc a.natAbs / b.natAbs ≤ a.natAbs / 2 :=
                    Nat.div_le_div_left hb2' (by omega)
                _ ≤ 2 ^ 31 / 2 := Nat.div_le_div_right hale
                _ = 2 ^ 30 := by norm_num
            have : (Int.tdiv a b).natAbs ≤ 2 ^ 30 := by omega
            unfold INT32_MIN INT32_MAX at *
            omega

/-- Witness for C7: `b = 0` arm at `a = 7`, general arm at `(7, -2)`. -/
theorem claim_C7_witness :
    dvm_div_int32 7 0 {} = (0, {div_zero := true}) ∧
    dvm_div_int32 7 (-2) {} = (-3, {}) :=
  ⟨claim_C7.1 7 {}, by
    have h := (claim_C7.2.1 7 (-2) {} (by decide) (by decide) (by decide)
      (by decide) (by decide) (by decide)).1
    rw [h]
    decide⟩

/-! ## Counter-based PRNG (`src/dvm/prng.c`) -/

/-- `ct_prng_t`: `(seed, op_id, step)`, all `uint64_t`. -/
structure ct_prng where
  seed : ℕ
  op_id : ℕ
  step : ℕ
  deriving DecidableEq, Repr

/-- One Philox-style mixing round:
`ctr = (ctr * 0xD2511F53) ⊕ key`, `key = key * 0xCD9E8D57 + 0x9E3779B9`,
both reduced to 64 bits. -/
def prng_round (p : ℕ × ℕ) : ℕ × ℕ :=
  (((p.1 * 0xD2511F53) % 2 ^ 64) ^^^ p.2,
   (p.2 * 0xCD9E8D57 + 0x9E3779B9) % 2 ^ 64)

/-- `prng_core`: pure function of `(seed, op_id, step)`.  The counter is
`(op_id << 32) | (step & 0xFFFFFFFF)` (the shift wraps at 64 bits), the key
is `seed ⊕ (op_id * 0x9E3779B97F4A7C15)`, ten rounds are applied, and the
low 32 bits of the counter are returned. -/
def prng_core (seed op_id step : ℕ) : ℕ :=
  let ctr : ℕ := ((op_id <<< 32) % 2 ^ 64) ||| (step % 2 ^ 32)
  let key : ℕ := (seed % 2 ^ 64) ^^^ ((op_id * 0x9E3779B97F4A7C15) % 2 ^ 64)
  let mixed := prng_round^[10] (ctr, key)
  mixed.1 % 2 ^ 32

/-- `ct_prng_init`: store the seed and op id, set the cursor to 0. -/
def ct_prng_init (seed op_id : ℕ) : ct_prng :=
  { seed := seed, op_id := op_id, step := 0 }

/-- `ct_prng_next`: emit `prng_core` at the cursor, then advance the cursor
(the `uint64_t` increment wraps at `2^64`). -/
def ct_prng_next (p : ct_prng) : ℕ × ct_prng :=
  (prng_core p.seed p.op_id p.step, {p with step := (p.step + 1) % 2 ^ 64})

/-- `ct_prng_peek`: emit `prng_core` at an arbitrary step, no mutation
(the C parameter is `const`; the embedding returns no state at all). -/
def ct_prng_peek (p : ct_prng) (step : ℕ) : ℕ :=
  prng_core p.seed p.op_id step

/-- The list of outputs of `n` successive `ct_prng_next` calls. -/
def ct_prng_run : ℕ → ct_prng → List ℕ
  | 0, _ => []
  | n + 1, p =>
    let (v, p') := ct_prng_next p
    v :: ct_prng_run n p'

theorem ct_prng_run_eq_map (n : ℕ) (p : ct_prng) (h : p.step + n ≤ 2 ^ 64) :
    ct_prng_run n p = (List.range n).map (fun i => prng_core p.seed p.op_id (p.step + i)) := by
  induction n generalizing p with
  | zero => simp [ct_prng_run]
  | succ m ih =>
    rcases Nat.lt_or_ge (p.step + 1) (2 ^ 64) with hlt | hge
    · have hstep : (p.step + 1) % 2 ^ 64 = p.step + 1 := Nat.mod_eq_of_lt hlt
      have ih' := ih {p with step := (p.step + 1) % 2 ^ 64}
        (by simp only [hstep]; omega)
      simp only [ct_prng_run, ct_prng_next] at ih' ⊢
      rw [ih', List.range_succ_eq_map, List.map_cons, List.map_map]
      refine congrArg₂ List.cons (by simp) ?_
      apply List.map_congr_left
      intro i _
      simp only [Function.comp_apply, hstep]
      congr 1
      omega
    · have hm : m = 0 := by omega
      subst hm
      rw [show List.range 1 = [0] from rfl]
      simp [ct_prng_run, ct_prng_next]

/-- C5. PRNG purity: `peek` at step `s` returns exactly what `next` returns
from a state whose cursor is `s`; `next` only advances the cursor; and the
output stream from a freshly initialized state is the pure function
`prng_core (seed, op_id, ·)` — so two states initialized with the same
`(seed, op_id)` replay bit-for-bit identical sequences. -/
theorem claim_C5 :
    (∀ (p : ct_prng) (s : ℕ), ct_prng_peek p s = (ct_prng_next {p with step := s}).1) ∧
    (∀ p : ct_prng, (ct_prng_next p).2 = {p with step := (p.step + 1) % 2 ^ 64}) ∧
    (∀ (seed op_id n : ℕ), n ≤ 2 ^ 64 →
      ct_prng_run n (ct_prng_init seed op_id) =
        (List.range n).map (prng_core seed op_id)) := by
  refine ⟨fun p s => rfl, fun p => rfl, fun seed op_id n h => ?_⟩
  rw [ct_prng_run_eq_map n (ct_prng_init seed op_id) (by simpa [ct_prng_init])]
  simp [ct_prng_init]

/-- Witness for C5 at `seed = 0`, `op_id = 0`, `n = 2`. -/
theorem claim_C5_witness :
    ct_prng_run 2 (ct_prng_init 0 0) = (List.range 2).map (prng_core 0 0) :=
  claim_C5.2.2 0 0 2 (by norm_num)

/-- C6. Reference vectors: with `(seed = 0, op_id = 0)` the first five
outputs of `ct_prng_next` are `0x24F74A49, 0xA96E3F40, 0xC1C8ECFB,
0xE2E62252, 0x0AAD3C4D`. -/
theorem claim_C6 :
    ct_prng_run 5 (ct_prng_init 0 0) =
      [0x24F74A49, 0xA96E3F40, 0xC1C8ECFB, 0xE2E62252, 0x0AAD3C4D] := by
  decide

/-- `ct_stochastic_round` (`src/dvm/prng.c`).  A null PRNG pointer falls
back to truncation.  The threshold expression transcribes the C source
`rand >> (32 - shift)`; note that for `shift` in `(32, 62]` the C shift
count `32 - shift` wraps as `uint32_t` to a value ≥ 32, so the C expression
has no defined value there (see claim C8) — the embedding's `ℕ`-subtraction
reading `32 - shift = 0` is only faithful for `shift ≤ 32`. -/
def ct_stochastic_round (x : Int) (shift : ℕ) (prng : Option ct_prng)
    (f : ct_fault_flags) : Int × Option ct_prng × ct_fault_flags :=
  if shift > 62 then (0, prng, {f with domain := true})
  else if shift = 0 then
    let (v, f1) := dvm_clamp32 x f
    (v, prng, f1)
  else
    match prng with
    | none =>
      let (v, f1) := dvm_clamp32 (x / 2 ^ shift) f
      (v, none, f1)
    | some p =>
      let (rand, p') := ct_prng_next p
      let fraction : Int := x % 2 ^ shift
      let threshold : ℕ := rand >>> (32 - shift)
      let quotient : Int := x / 2 ^ shift
      let result : Int := if fraction > (threshold : Int) then quotient + 1 else quotient
      let (v, f1) := dvm_clamp32 result f
      (v, some p', f1)

/-- C8 (supporting theorem for the code bug).  For `1 ≤ k ≤ 32` — the
range on which the C threshold expression is defined — `ct_stochastic_round`
advances the PRNG cursor by exactly one, the threshold taken from the PRNG
output lies in `[0, 2^k)`, and the result is the clamp to `int32_t` of
`x >> k` plus one exactly when the `k` low fractional bits of `x` exceed
the threshold.  For `33 ≤ k ≤ 62` the C source performs a 32-bit shift by
the wrapped count `32 - k (mod 2^32) ≥ 32`, which is undefined behaviour. -/
theorem claim_C8 (x : Int) (k : ℕ) (p : ct_prng) (f : ct_fault_flags)
    (hk1 : 1 ≤ k) (hk32 : k ≤ 32) (hstep : p.step + 1 < 2 ^ 64) :
    let rand := prng_core p.seed p.op_id p.step
    let threshold : ℕ := rand >>> (32 - k)
    threshold < 2 ^ k ∧
    ct_stochastic_round x k (some p) f =
      ((dvm_clamp32 (if x % 2 ^ k > (threshold : Int) then x / 2 ^ k + 1
          else x / 2 ^ k) f).1,
        some {p with step := p.step + 1},
        (dvm_clamp32 (if x % 2 ^ k > (threshold : Int) then x / 2 ^ k + 1
          else x / 2 ^ k) f).2) := by
  intro rand threshold
  have hcore : rand < 2 ^ 32 := by
    unfold_let rand
    unfold prng_core
    exact Nat.mod_lt _ (by norm_num)
  constructor
  · unfold_let threshold
    rw [Nat.shiftRight_eq_div_pow]
    have h1 : rand / 2 ^ (32 - k) < 2 ^ 32 / 2 ^ (32 - k) := by
      apply Nat.div_lt_div_of_lt_of_dvd
      · exact pow_dvd_pow 2 (by omega)
      · exact hcore
    have h2 : (2 : ℕ) ^ 32 / 2 ^ (32 - k) = 2 ^ k := by
      rw [Nat.pow_div (by omega) (by norm_num)]
      congr 1
      omega
    omega
  · unfold ct_stochastic_round
    rw [if_neg (by omega), if_neg (by omega)]
    simp only [ct_prng_next]
    rw [Nat.mod_eq_of_lt hstep]

/-- Witness for C8 at `x = 98304`, `k = 16`, the zero-initialized PRNG. -/
theorem claim_C8_witness :
    (prng_core 0 0 0) >>> 16 < 2 ^ 16 ∧
    ct_stochastic_round 98304 16 (some (ct_prng_init 0 0)) {} =
      ((dvm_clamp32 (if (98304 : Int) % 2 ^ 16 > ((prng_core 0 0 0) >>> 16 : ℕ) then
          98304 / 2 ^ 16 + 1 else 98304 / 2 ^ 16) {}).1,
        some {ct_prng_init 0 0 with step := 0 + 1},
        (dvm_clamp32 (if (98304 : Int) % 2 ^ 16 > ((prng_core 0 0 0) >>> 16 : ℕ) then
          98304 / 2 ^ 16 + 1 else 98304 / 2 ^ 16) {}).2) :=
  claim_C8 98304 16 (ct_prng_init 0 0) {} (by decide) (by decide) (by norm_num [ct_prng_init])

/-! ## Compensated (Neumaier) summation (`src/dvm/compensated.c`) -/

/-- `safe_add64`: 64-bit addition saturating at the `int64_t` bounds, with
the overflow test written exactly as the source's pre-checks. -/
def safe_add64 (a b : Int) (f : ct_fault_flags) : Int × ct_fault_flags :=
  if b > 0 ∧ a > INT64_MAX - b then (INT64_MAX, {f with overflow := true})
  else if b < 0 ∧ a < INT64_MIN - b then (INT64_MIN, {f with underflow := true})
  else (a + b, f)

/-- `abs64_sat` (the static copy in `compensated.c`, identical to
`dvm_abs64_sat`): absolute value with `|INT64_MIN|` saturated to `INT64_MAX`. -/
def abs64_sat (x : Int) (f : ct_fault_flags) : Int × ct_fault_flags :=
  if x = INT64_MIN then (INT64_MAX, {f with overflow := true})
  else (|x|, f)

/-- `ct_comp_accum_t`: running sum and accumulated error term. -/
structure ct_comp_accum where
  sum : Int
  err : Int
  deriving DecidableEq, Repr

/-- `ct_comp_init`. -/
def ct_comp_init : ct_comp_accum := ⟨0, 0⟩

/-- `ct_comp_init_value`. -/
def ct_comp_init_value (v : Int) : ct_comp_accum := ⟨v, 0⟩

/-- `ct_comp_add`: Neumaier compensated addition.  `t` is the saturating
sum; the error term `e` is computed with plain C `int64_t` additions and
subtractions, modelled as two's-complement `wrap64` arithmetic (on every
trace appearing in the theorems below the intermediates stay in range, so
the wraps are identities and no undefined behaviour is exercised). -/
def ct_comp_add (acc : ct_comp_accum) (value : Int) (f : ct_fault_flags) :
    ct_comp_accum × ct_fault_flags :=
  let (t, f1) := safe_add64 acc.sum value f
  let (asum, f2) := abs64_sat acc.sum f1
  let (aval, f3) := abs64_sat value f2
  let e : Int :=
    if asum ≥ aval then wrap64 (wrap64 (acc.sum - t) + value)
    else wrap64 (wrap64 (value - t) + acc.sum)
  let (err2, f4) := safe_add64 acc.err e f3
  (⟨t, err2⟩, f4)

/-- `ct_comp_merge`: compensated add of the source's sum, then plain
saturating add of the source's error term. -/
def ct_comp_merge (dest src : ct_comp_accum) (f : ct_fault_flags) :
    ct_comp_accum × ct_fault_flags :=
  let (d1, f1) := ct_comp_add dest src.sum f
  let (e2, f2) := safe_add64 d1.err src.err f1
  (⟨d1.sum, e2⟩, f2)

/-- `ct_comp_finalize`: saturating `sum + err`. -/
def ct_comp_finalize (acc : ct_comp_accum) (f : ct_fault_flags) :
    Int × ct_fault_flags :=
  safe_add64 acc.sum acc.err f

/-- Loop body shared by `ct_comp_sum_array` and the big-tree fallback of
`ct_reduction_reduce_64`: one compensated addition of `values[i]`. -/
def comp_sum_step (v : ℕ → Int) (st : ct_comp_accum × ct_fault_flags) (i : ℕ) :
    ct_comp_accum × ct_fault_flags :=
  ct_comp_add st.1 (v i) st.2

/-- `ct_comp_sum_array`: sequential Neumaier sum of `count` values (the C
array pointer becomes the `Option`al index function `values`). -/
def ct_comp_sum_array (values : Option (ℕ → Int)) (count : ℕ)
    (f : ct_fault_flags) : Int × ct_fault_flags :=
  match values with
  | none => (0, f)
  | some v =>
    if count = 0 then (0, f)
    else
      let f1 := if count > 65536 then {f with domain := true} else f
      let st := (List.range count).foldl (comp_sum_step v) (ct_comp_init, f1)
      ct_comp_finalize st.1 st.2

/-! ## Fixed-topology reduction tree (`src/dvm/reduction.c`) -/

def CT_LEAF_MARKER : ℕ := 4294967295
def CT_ROOT_MARKER : ℕ := 4294967295

/-- Binary digit count: the `while (val > 0) { val >>= 1; log++; }` loop
shared by the two static `ceil_log2` helpers. -/
def bit_width (v : ℕ) : ℕ :=
  if h : v = 0 then 0 else bit_width (v / 2) + 1
termination_by v
decreasing_by exact Nat.div_lt_self (Nat.pos_of_ne_zero h) one_lt_two

/-- `ceil_log2` as defined in `reduction.c` (0 for inputs 0 and 1). -/
def reduction_ceil_log2 (n : ℕ) : ℕ :=
  if n = 0 then 0 else if n = 1 then 0 else bit_width (n - 1)

/-- `ct_reduction_node_t` (the `_pad` field is dropped). -/
structure ct_reduction_node where
  left_child : ℕ
  right_child : ℕ
  op_id : ℕ
  parent : ℕ
  deriving DecidableEq, Repr

/-- `ct_reduction_tree_t`; the caller-provided node array is an index
function. -/
structure ct_reduction_tree where
  nodes : ℕ → ct_reduction_node
  num_leaves : ℕ
  num_internal : ℕ
  num_nodes : ℕ
  root_index : ℕ
  depth : ℕ
  base_op_id : ℕ

/-- The leaf-initialization loop of `ct_reduction_init`. -/
def reduction_init_leaf_pass (nodes : ℕ → ct_reduction_node)
    (num_leaves base : ℕ) : ℕ → ct_reduction_node :=
  (List.range num_leaves).foldl
    (fun nd i =>
      Function.update nd i ⟨CT_LEAF_MARKER, CT_LEAF_MARKER, base + i, CT_ROOT_MARKER⟩)
    nodes

/-- One iteration of the internal-node loop of `ct_reduction_init`:
write node `num_leaves + i` with children `2i`, `2i+1` (clamped to
`CT_LEAF_MARKER` when ≥ the node's own index), then point the children's
parent fields at it. -/
def reduction_init_internal_step (num_leaves base num_nodes : ℕ)
    (nd : ℕ → ct_reduction_node) (i : ℕ) : ℕ → ct_reduction_node :=
  let node_idx := num_leaves + i
  let lc0 := 2 * i
  let rc0 := 2 * i + 1
  let lc := if lc0 ≥ node_idx then CT_LEAF_MARKER else lc0
  let rc := if rc0 ≥ node_idx then CT_LEAF_MARKER else rc0
  let nd1 := Function.update nd node_idx ⟨lc, rc, base + node_idx, CT_ROOT_MARKER⟩
  let nd2 :=
    if lc ≠ CT_LEAF_MARKER ∧ lc < num_nodes then
      Function.update nd1 lc {nd1 lc with parent := node_idx}
    else nd1
  if rc ≠ CT_LEAF_MARKER ∧ rc < num_nodes then
    Function.update nd2 rc {nd2 rc with parent := node_idx}
  else nd2

/-- `ct_reduction_init` (the `tree`/`nodes` null checks are absorbed by the
embedding's non-optional arguments; on error no tree is produced). -/
def ct_reduction_init (nodes : ℕ → ct_reduction_node) (num_leaves base_op_id : ℕ)
    (f : ct_fault_flags) : ct_error × Option ct_reduction_tree × ct_fault_flags :=
  if num_leaves = 0 then (CT_ERR_CONFIG, none, {f with domain := true})
  else if num_leaves > 65536 then (CT_ERR_CONFIG, none, {f with domain := true})
  else
    let num_internal := if num_leaves > 1 then num_leaves - 1 else 0
    let num_nodes := num_leaves + num_internal
    let root_index := if num_leaves > 1 then num_nodes - 1 else 0
    let depth := reduction_ceil_log2 num_leaves
    let nd1 := reduction_init_leaf_pass nodes num_leaves base_op_id
    let nd2 :=
      if num_leaves > 1 then
        (List.range num_internal).foldl
          (reduction_init_internal_step num_leaves base_op_id num_nodes) nd1
      else nd1
    (CT_OK,
      some ⟨nd2, num_leaves, num_internal, num_nodes, root_index, depth, base_op_id⟩,
      f)

/-- Loop body of the stack path of `ct_reduction_reduce_64`: merge the left
child's accumulator into node `i`, then the right child's, guarding each
merge by `child != CT_LEAF_MARKER && child < num_nodes`. -/
def reduce_merge_step (t : ct_reduction_tree)
    (st : (ℕ → ct_comp_accum) × ct_fault_flags) (i : ℕ) :
    (ℕ → ct_comp_accum) × ct_fault_flags :=
  let left := (t.nodes i).left_child
  let right := (t.nodes i).right_child
  let st1 :=
    if left ≠ CT_LEAF_MARKER ∧ left < t.num_nodes then
      ((Function.update st.1 i (ct_comp_merge (st.1 i) (st.1 left) st.2).1),
        (ct_comp_merge (st.1 i) (st.1 left) st.2).2)
    else st
  if right ≠ CT_LEAF_MARKER ∧ right < t.num_nodes then
    ((Function.update st1.1 i (ct_comp_merge (st1.1 i) (st1.1 right) st1.2).1),
      (ct_comp_merge (st1.1 i) (st1.1 right) st1.2).2)
  else st1

/-- `ct_reduction_reduce_64`.  Trees whose `2n-1` nodes fit the 256-entry
stack workspace are reduced bottom-up in ascending node order; larger trees
set `domain` and fall back to the plain sequential compensated sum. -/
def ct_reduction_reduce_64 (tree : Option ct_reduction_tree)
    (values : Option (ℕ → Int)) (f : ct_fault_flags) : Int × ct_fault_flags :=
  match tree, values with
  | none, _ => (0, f)
  | _, none => (0, f)
  | some t, some v =>
    if t.num_leaves = 0 then (0, f)
    else if t.num_leaves = 1 then (v 0, f)
    else if t.num_nodes ≤ 256 then
      let acc0 : ℕ → ct_comp_accum :=
        fun i => if i < t.num_leaves then ct_comp_init_value (v i) else ct_comp_init
      let st := (List.range' t.num_leaves (t.num_nodes - t.num_leaves)).foldl
        (reduce_merge_step t) (acc0, f)
      ct_comp_finalize (st.1 t.root_index) st.2
    else
      let f1 := {f with domain := true}
      let st := (List.range t.num_leaves).foldl (comp_sum_step v) (ct_comp_init, f1)
      ct_comp_finalize st.1 st.2

/-- C2 counterexample.  At `n = 5`,
`v = [MIN, MIN, MIN, MAX-1, MAX-1]` (64-bit bounds), the tree reduction
returns `INT64_MIN` while the sequential compensated sum returns `-4`: the
two groupings saturate differently.  No intermediate of this trace leaves
the `int64_t` range except through the explicitly saturating `safe_add64`,
so the modelled trace is exactly the C one. -/
theorem claim_C2_counterexample :
    (ct_reduction_reduce_64
        (ct_reduction_init (fun _ => ⟨0, 0, 0, 0⟩) 5 0 {}).2.1
        (some (fun i => [INT64_MIN, INT64_MIN, INT64_MIN,
          INT64_MAX - 1, INT64_MAX - 1].getD i 0)) {}).1 = INT64_MIN ∧
    (ct_comp_sum_array
        (some (fun i => [INT64_MIN, INT64_MIN, INT64_MIN,
          INT64_MAX - 1, INT64_MAX - 1].getD i 0)) 5 {}).1 = -4 ∧
    INT64_MIN ≠ (-4 : Int) := by
  set_option maxRecDepth 10000 in
  refine ⟨?_, ?_, by decide⟩ <;> decide

/-! Exact-regime lemmas: when no 64-bit saturation can occur, the
compensated operations compute plain integer sums with a zero error term
and leave the fault flags alone. -/

theorem wrap64_id (z : Int) (h1 : -(2 ^ 63) ≤ z) (h2 : z < 2 ^ 63) :
    wrap64 z = z := by
  unfold wrap64
  omega

theorem safe_add64_exact (a b : Int) (f : ct_fault_flags)
    (h : |a + b| ≤ INT64_MAX) : safe_add64 a b f = (a + b, f) := by
  unfold safe_add64
  rw [abs_le] at h
  rw [if_neg (by unfold INT64_MAX at *; omega),
    if_neg (by unfold INT64_MAX INT64_MIN at *; omega)]

theorem safe_add64_zero (a : Int) (f : ct_fault_flags) :
    safe_add64 a 0 f = (a, f) := by
  unfold safe_add64
  norm_num

theorem abs64_sat_exact (x : Int) (f : ct_fault_flags) (h : x ≠ INT64_MIN) :
    abs64_sat x f = (|x|, f) := by
  unfold abs64_sat
  rw [if_neg h]

theorem ct_comp_add_exact (s v : Int) (f : ct_fault_flags)
    (hs : |s| ≤ INT64_MAX) (hv : |v| ≤ INT64_MAX) (hsv : |s + v| ≤ INT64_MAX) :
    ct_comp_add ⟨s, 0⟩ v f = (⟨s + v, 0⟩, f) := by
  have hsmin : s ≠ INT64_MIN := by
    rw [abs_le] at hs
    unfold INT64_MAX at hs
    unfold INT64_MIN
    omega
  have hvmin : v ≠ INT64_MIN := by
    rw [abs_le] at hv
    unfold INT64_MAX at hv
    unfold INT64_MIN
    omega
  have hvrange : -(2 ^ 63) ≤ -v ∧ -v < 2 ^ 63 := by
    rw [abs_le] at hv
    unfold INT64_MAX at hv
    omega
  have e1 : wrap64 (wrap64 (s - (s + v)) + v) = 0 := by
    rw [show s - (s + v) = -v by ring, wrap64_id (-v) hvrange.1 hvrange.2,
      show -v + v = 0 by ring, wrap64_id 0 (by norm_num) (by norm_num)]
  have e2 : wrap64 (wrap64 (v - (s + v)) + s) = 0 := by
    have hsrange : -(2 ^ 63) ≤ -s ∧ -s < 2 ^ 63 := by
      rw [abs_le] at hs
      unfold INT64_MAX at hs
      omega
    rw [show v - (s + v) = -s by ring, wrap64_id (-s) hsrange.1 hsrange.2,
      show -s + s = 0 by ring, wrap64_id 0 (by norm_num) (by norm_num)]
  unfold ct_comp_add
  simp only [safe_add64_exact s v f hsv, abs64_sat_exact s f hsmin,
    abs64_sat_exact v f hvmin, e1, e2, ite_self, safe_add64_zero]

theorem ct_comp_merge_exact (s1 s2 : Int) (f : ct_fault_flags)
    (h1 : |s1| ≤ INT64_MAX) (h2 : |s2| ≤ INT64_MAX) (h12 : |s1 + s2| ≤ INT64_MAX) :
    ct_comp_merge ⟨s1, 0⟩ ⟨s2, 0⟩ f = (⟨s1 + s2, 0⟩, f) := by
  unfold ct_comp_merge
  simp only [ct_comp_add_exact s1 s2 f h1 h2 h12, safe_add64_zero]

theorem abs_partial_sum_le (v : ℕ → Int) (n : ℕ)
    (H : ∑ i in Finset.range n, |v i| ≤ INT64_MAX) (j : ℕ) (hj : j ≤ n) :
    |∑ i in Finset.range j, v i| ≤ INT64_MAX :=
  calc |∑ i in Finset.range j, v i| ≤ ∑ i in Finset.range j, |v i| :=
        Finset.abs_sum_le_sum_abs _ _
    _ ≤ ∑ i in Finset.range n, |v i| :=
        Finset.sum_le_sum_of_subset_of_nonneg (Finset.range_subset.2 hj)
          (fun i _ _ => abs_nonneg _)
    _ ≤ INT64_MAX := H

theorem abs_single_le (v : ℕ → Int) (n : ℕ)
    (H : ∑ i in Finset.range n, |v i| ≤ INT64_MAX) (k : ℕ) (hk : k < n) :
    |v k| ≤ INT64_MAX :=
  calc |v k| ≤ ∑ i in Finset.range n, |v i| :=
        Finset.single_le_sum (fun i _ => abs_nonneg (v i)) (Finset.mem_range.2 hk)
    _ ≤ INT64_MAX := H

theorem comp_sum_fold_exact (v : ℕ → Int) (n : ℕ) (g : ct_fault_flags)
    (H : ∑ i in Finset.range n, |v i| ≤ INT64_MAX) :
    ∀ m, m ≤ n →
      (List.range m).foldl (comp_sum_step v) (ct_comp_init, g) =
        (⟨∑ i in Finset.range m, v i, 0⟩, g) := by
  intro m
  induction m with
  | zero => intro _; simp [ct_comp_init]
  | succ k ih =>
    intro hm
    rw [List.range_succ, List.foldl_append, ih (by omega), List.foldl_cons,
      List.foldl_nil]
    unfold comp_sum_step
    have hadd := ct_comp_add_exact (∑ i in Finset.range k, v i) (v k) g
      (abs_partial_sum_le v n H k (by omega)) (abs_single_le v n H k (by omega))
      (by rw [← Finset.sum_range_succ]
          exact abs_partial_sum_le v n H (k + 1) hm)
    simp only [hadd, Finset.sum_range_succ]

theorem ct_comp_sum_array_exact (v : ℕ → Int) (n : ℕ) (g : ct_fault_flags)
    (h1 : 1 ≤ n) (hn : n ≤ 65536)
    (H : ∑ i in Finset.range n, |v i| ≤ INT64_MAX) :
    ct_comp_sum_array (some v) n g = (∑ i in Finset.range n, v i, g) := by
  unfold ct_comp_sum_array
  simp only [if_neg (by omega : ¬ n = 0), if_neg (by omega : ¬ n > 65536)]
  rw [comp_sum_fold_exact v n g H n le_rfl]
  unfold ct_comp_finalize
  exact safe_add64_zero _ _

/-- The `(left_child, right_child, op_id)` view of a node array; the
internal-node loop only ever changes the `parent` field of already-written
nodes, so this projection evolves by single updates. -/
def node_shape (nd : ℕ → ct_reduction_node) (j : ℕ) : ℕ × ℕ × ℕ :=
  ((nd j).left_child, (nd j).right_child, (nd j).op_id)

theorem internal_step_shape (n base : ℕ) (nd : ℕ → ct_reduction_node) (k : ℕ)
    (h2 : 2 ≤ n) (hk : k ≤ n - 2) (hn : n ≤ 65536) (j : ℕ) :
    node_shape (reduction_init_internal_step n base (n + (n - 1)) nd k) j =
      if j = n + k then (2 * k, 2 * k + 1, base + (n + k)) else node_shape nd j := by
  have hne1 : ¬ (2 * k ≥ n + k) := by omega
  have hne2 : ¬ (2 * k + 1 ≥ n + k) := by omega
  have hmark1 : (2 * k ≠ CT_LEAF_MARKER) := by unfold CT_LEAF_MARKER; omega
  have hmark2 : (2 * k + 1 ≠ CT_LEAF_MARKER) := by unfold CT_LEAF_MARKER; omega
  have hlt1 : 2 * k < n + (n - 1) := by omega
  have hlt2 : 2 * k + 1 < n + (n - 1) := by omega
  unfold reduction_init_internal_step node_shape
  simp only [if_neg hne1, if_neg hne2, if_pos (And.intro hmark1 hlt1),
    if_pos (And.intro hmark2 hlt2), Function.update_apply]
  by_cases hj1 : j = n + k
  · subst hj1
    simp [show ¬ (n + k = 2 * k + 1) by omega, show ¬ (n + k = 2 * k) by omega]
  · by_cases hj2 : j = 2 * k + 1
    · subst hj2
      simp [hj1, show ¬ (2 * k + 1 = 2 * k) by omega]
    · by_cases hj3 : j = 2 * k
      · subst hj3
        simp [hj1, hj2, show ¬ (2 * k = 2 * k + 1) by omega]
      · simp [hj1, hj2, hj3]

theorem internal_fold_shape (n base : ℕ) (h2 : 2 ≤ n) (hn : n ≤ 65536)
    (nd0 : ℕ → ct_reduction_node) :
    ∀ m, m ≤ n - 1 → ∀ j,
      node_shape
          ((List.range m).foldl (reduction_init_internal_step n base (n + (n - 1))) nd0) j =
        if n ≤ j ∧ j < n + m then (2 * (j - n), 2 * (j - n) + 1, base + j)
        else node_shape nd0 j := by
  intro m
  induction m with
  | zero =>
    intro _ j
    simp only [List.range_zero, List.foldl_nil]
    rw [if_neg (by omega)]
  | succ k ih =>
    intro hm j
    rw [List.range_succ, List.foldl_append, List.foldl_cons, List.foldl_nil]
    rw [internal_step_shape n base _ k h2 (by omega) hn j]
    by_cases hj : j = n + k
    · subst hj
      rw [if_pos rfl, if_pos (by omega)]
      congr 2 <;> omega
    · rw [if_neg hj, ih (by omega) j]
      by_cases hj2 : n ≤ j ∧ j < n + k
      · rw [if_pos hj2, if_pos (by omega)]
      · rw [if_neg hj2, if_neg (by omega)]

/-- The leaf pass writes `(CT_LEAF_MARKER, CT_LEAF_MARKER, base + j)` into
every index below `num_leaves` and leaves the rest of the caller array
untouched. -/
theorem leaf_pass_shape (nodes : ℕ → ct_reduction_node) (base : ℕ) :
    ∀ (n : ℕ) (j : ℕ),
      node_shape (reduction_init_leaf_pass nodes n base) j =
        if j < n then (CT_LEAF_MARKER, CT_LEAF_MARKER, base + j)
        else node_shape nodes j := by
  intro n
  induction n with
  | zero =>
    intro j
    simp only [reduction_init_leaf_pass, List.range_zero, List.foldl_nil]
    rw [if_neg (by omega)]
  | succ k ih =>
    intro j
    unfold reduction_init_leaf_pass at ih ⊢
    rw [List.range_succ, List.foldl_append, List.foldl_cons, List.foldl_nil]
    by_cases hj : j = k
    · subst hj
      unfold node_shape
      rw [Function.update_same]
      rw [if_pos (by omega)]
    · unfold node_shape
      rw [Function.update_noteq hj]
      have := ih j
      unfold node_shape at this
      rw [this]
      by_cases hj2 : j < k
      · rw [if_pos hj2, if_pos (by omega)]
      · rw [if_neg hj2, if_neg (by omega)]

/-- `ct_reduction_init` succeeds on `1 ≤ n ≤ 65536` and returns the
explicitly-constructed tree. -/
theorem ct_reduction_init_spec (nodes0 : ℕ → ct_reduction_node)
    (n base : ℕ) (f : ct_fault_flags) (h1 : 1 ≤ n) (hn : n ≤ 65536) :
    ct_reduction_init nodes0 n base f =
      (CT_OK,
        some
          { nodes :=
              if n > 1 then
                (List.range (if n > 1 then n - 1 else 0)).foldl
                  (reduction_init_internal_step n base
                    (n + (if n > 1 then n - 1 else 0)))
                  (reduction_init_leaf_pass nodes0 n base)
              else reduction_init_leaf_pass nodes0 n base,
            num_leaves := n,
            num_internal := if n > 1 then n - 1 else 0,
            num_nodes := n + (if n > 1 then n - 1 else 0),
            root_index := if n > 1 then n + (if n > 1 then n - 1 else 0) - 1 else 0,
            depth := reduction_ceil_log2 n,
            base_op_id := base },
        f) := by
  unfold ct_reduction_init
  rw [if_neg (by omega), if_neg (by omega)]

/-- C10. For `2 ≤ n ≤ 65536`, `ct_reduction_init` succeeds and the tree it
builds gives internal node `n+i` (for `0 ≤ i < n-1`) exactly the children
`2i` and `2i+1`, both strictly below `n+i` (so the `CT_LEAF_MARKER` clamp
never fires), every node index below the root `2n-2` is the child of
exactly one internal node, and the root is the child of none — so the
ascending-order pass merges every leaf into the root exactly once. -/
theorem claim_C10 (nodes0 : ℕ → ct_reduction_node) (n base : ℕ)
    (f : ct_fault_flags) (h2 : 2 ≤ n) (hn : n ≤ 65536) :
    ∃ tr, ct_reduction_init nodes0 n base f = (CT_OK, some tr, f) ∧
      (∀ i, i < n - 1 →
        (tr.nodes (n + i)).left_child = 2 * i ∧
        (tr.nodes (n + i)).right_child = 2 * i + 1 ∧
        2 * i < n + i ∧ 2 * i + 1 < n + i) ∧
      (∀ c, c < 2 * n - 2 → ∃! i, i < n - 1 ∧ (2 * i = c ∨ 2 * i + 1 = c)) ∧
      (∀ i, i < n - 1 → 2 * i ≠ 2 * n - 2 ∧ 2 * i + 1 ≠ 2 * n - 2) := by
  refine ⟨_, ct_reduction_init_spec nodes0 n base f (by omega) hn, ?_, ?_, ?_⟩
  · intro i hi
    have hsh := internal_fold_shape n base h2 hn
      (reduction_init_leaf_pass nodes0 n base) (n - 1) le_rfl (n + i)
    rw [if_pos (by omega)] at hsh
    simp only [if_pos (show n > 1 by omega)]
    unfold node_shape at hsh
    refine ⟨?_, ?_, by omega, by omega⟩
    · have := congrArg (fun p => p.1) hsh
      simp at this
      rw [this]
    · have := congrArg (fun p => p.2.1) hsh
      simp at this
      rw [this]
  · intro c hc
    refine ⟨c / 2, ⟨by omega, by omega⟩, ?_⟩
    intro i hi
    omega
  · intro i hi
    omega

/-- Witness for C10 at `n = 4`. -/
theorem claim_C10_witness :
    ∃ tr, ct_reduction_init (fun _ => ⟨0, 0, 0, 0⟩) 4 0 {} = (CT_OK, some tr, {}) ∧
      (∀ i, i < 4 - 1 →
        (tr.nodes (4 + i)).left_child = 2 * i ∧
        (tr.nodes (4 + i)).right_child = 2 * i + 1 ∧
        2 * i < 4 + i ∧ 2 * i + 1 < 4 + i) ∧
      (∀ c, c < 2 * 4 - 2 → ∃! i, i < 4 - 1 ∧ (2 * i = c ∨ 2 * i + 1 = c)) ∧
      (∀ i, i < 4 - 1 → 2 * i ≠ 2 * 4 - 2 ∧ 2 * i + 1 ≠ 2 * 4 - 2) :=
  claim_C10 (fun _ => ⟨0, 0, 0, 0⟩) 4 0 {} (by norm_num) (by norm_num)

theorem reduce_fold_exact (n base : ℕ) (v : ℕ → Int) (g : ct_fault_flags)
    (t : ct_reduction_tree) (h2 : 2 ≤ n) (hn : n ≤ 65536)
    (hleaves : t.num_leaves = n) (hnn : t.num_nodes = n + (n - 1))
    (hnodes : ∀ j, n ≤ j → j < n + (n - 1) →
      (t.nodes j).left_child = 2 * (j - n) ∧
      (t.nodes j).right_child = 2 * (j - n) + 1)
    (H : ∑ i in Finset.range n, |v i| ≤ INT64_MAX) :
    ∀ m, m ≤ n - 1 →
      ∃ acc : ℕ → ct_comp_accum,
        (List.range' n m).foldl (reduce_merge_step t)
            ((fun i => if i < n then ct_comp_init_value (v i) else ct_comp_init), g)
          = (acc, g) ∧
        (∀ j, j < n → acc j = ct_comp_init_value (v j)) ∧
        (∀ j, n + m ≤ j → acc j = ct_comp_init) ∧
        (∀ j, 2 * m ≤ j → j < n + m → (acc j).err = 0) ∧
        (∑ j in Finset.Ico (2 * m) (n + m), (acc j).sum) = ∑ i in Finset.range n, v i ∧
        (∑ j in Finset.Ico (2 * m) (n + m), |(acc j).sum|) ≤ ∑ i in Finset.range n, |v i| := by
  intro m
  induction m with
  | zero =>
    intro _
    refine ⟨_, rfl, fun j hj => if_pos hj, fun j hj => if_neg (by omega), ?_, ?_, ?_⟩
    · intro j _ hj2
      rw [if_pos (by omega)]
      rfl
    · rw [Nat.add_zero, Nat.mul_zero, ← Finset.range_eq_Ico]
      apply Finset.sum_congr rfl
      intro j hj
      rw [if_pos (Finset.mem_range.1 hj)]
      rfl
    · rw [Nat.add_zero, Nat.mul_zero, ← Finset.range_eq_Ico]
      apply le_of_eq
      apply Finset.sum_congr rfl
      intro j hj
      rw [if_pos (Finset.mem_range.1 hj)]
      rfl
  | succ m ih =>
    intro hm
    obtain ⟨acc, hfold, hacc_leaf, hacc_hi, hacc_err, hacc_sum, hacc_abs⟩ :=
      ih (by omega)
    obtain ⟨sl, hsl⟩ : ∃ s, (acc (2 * m)).sum = s := ⟨_, rfl⟩
    obtain ⟨sr, hsr⟩ : ∃ s, (acc (2 * m + 1)).sum = s := ⟨_, rfl⟩
    have hmem_l : 2 * m ∈ Finset.Ico (2 * m) (n + m) := by
      rw [Finset.mem_Ico]
      omega
    have hmem_r : 2 * m + 1 ∈ Finset.Ico (2 * m) (n + m) := by
      rw [Finset.mem_Ico]
      omega
    have habs_mem : ∀ j ∈ Finset.Ico (2 * m) (n + m), |(acc j).sum| ≤ INT64_MAX := by
      intro j hj
      calc |(acc j).sum| ≤ ∑ k in Finset.Ico (2 * m) (n + m), |(acc k).sum| :=
            Finset.single_le_sum (f := fun k => |(acc k).sum|)
              (fun k _ => abs_nonneg _) hj
        _ ≤ ∑ i in Finset.range n, |v i| := hacc_abs
        _ ≤ INT64_MAX := H
    have habs_l : |sl| ≤ INT64_MAX := hsl ▸ habs_mem _ hmem_l
    have habs_r : |sr| ≤ INT64_MAX := hsr ▸ habs_mem _ hmem_r
    have habs_pair : |sl| + |sr| ≤ ∑ i in Finset.range n, |v i| := by
      calc |sl| + |sr| = ∑ j in ({2 * m, 2 * m + 1} : Finset ℕ), |(acc j).sum| := by
            rw [Finset.sum_pair (Nat.ne_of_lt (Nat.lt_succ_self (2 * m))), hsl, hsr]
        _ ≤ ∑ j in Finset.Ico (2 * m) (n + m), |(acc j).sum| := by
            apply Finset.sum_le_sum_of_subset_of_nonneg
            · intro x hx
              rw [Finset.mem_insert, Finset.mem_singleton] at hx
              rw [Finset.mem_Ico]
              rcases hx with rfl | rfl
              · exact ⟨Nat.le_refl _, by omega⟩
              · exact ⟨Nat.le_succ_of_le (Nat.le_refl _), by omega⟩
            · intro i _ _
              exact abs_nonneg _
        _ ≤ ∑ i in Finset.range n, |v i| := hacc_abs
    have habs_lr : |sl + sr| ≤ INT64_MAX :=
      le_trans (abs_add sl sr) (le_trans habs_pair H)
    have hacc_l : acc (2 * m) = ⟨sl, 0⟩ := by
      have he := hacc_err (2 * m) (by omega) (by omega)
      cases hval : acc (2 * m)
      rw [hval] at he hsl
      simp only at he hsl
      rw [he, hsl]
    have hacc_r : acc (2 * m + 1) = ⟨sr, 0⟩ := by
      have he := hacc_err (2 * m + 1) (by omega) (by omega)
      cases hval : acc (2 * m + 1)
      rw [hval] at he hsr
      simp only at he hsr
      rw [he, hsr]
    have hnode := hnodes (n + m) (by omega) (by omega)
    have hchild : n + m - n = m := by omega
    rw [hchild] at hnode
    have hm1 : ct_comp_merge ct_comp_init ⟨sl, 0⟩ g = (⟨0 + sl, 0⟩, g) := by
      unfold ct_comp_init
      exact ct_comp_merge_exact 0 sl g (by unfold INT64_MAX; norm_num) habs_l
        (by rw [zero_add]; exact habs_l)
    have hm2 : ct_comp_merge (⟨0 + sl, 0⟩ : ct_comp_accum) ⟨sr, 0⟩ g =
        (⟨0 + sl + sr, 0⟩, g) :=
      ct_comp_merge_exact (0 + sl) sr g (by rw [zero_add]; exact habs_l)
        habs_r (by rw [zero_add]; exact habs_lr)
    have hne_rl : (2 * m + 1 : ℕ) ≠ n + m := by omega
    have hstep :
        reduce_merge_step t (acc, g) (n + m) =
          (Function.update (Function.update acc (n + m) ⟨0 + sl, 0⟩) (n + m)
            ⟨0 + sl + sr, 0⟩, g) := by
      unfold reduce_merge_step
      simp only [hnode.1, hnode.2,
        if_pos (And.intro (show (2 * m : ℕ) ≠ CT_LEAF_MARKER by
            unfold CT_LEAF_MARKER; omega)
          (show 2 * m < t.num_nodes by rw [hnn]; omega)),
        if_pos (And.intro (show (2 * m + 1 : ℕ) ≠ CT_LEAF_MARKER by
            unfold CT_LEAF_MARKER; omega)
          (show 2 * m + 1 < t.num_nodes by rw [hnn]; omega))]
      rw [hacc_hi (n + m) le_rfl, hacc_l, hm1]
      rw [Function.update_same, Function.update_noteq hne_rl, hacc_r, hm2]
    refine ⟨Function.update (Function.update acc (n + m) ⟨0 + sl, 0⟩) (n + m)
      ⟨0 + sl + sr, 0⟩, ?_, ?_, ?_, ?_, ?_, ?_⟩
    · rw [show List.range' n (m + 1) = List.range' n m ++ [n + 1 * m] from
        List.range'_concat n m, List.foldl_append, hfold, List.foldl_cons,
        List.foldl_nil, show n + 1 * m = n + m by omega]
      exact hstep
    · intro j hj
      rw [Function.update_noteq (by omega), Function.update_noteq (by omega)]
      exact hacc_leaf j hj
    · intro j hj
      rw [Function.update_noteq (by omega), Function.update_noteq (by omega)]
      exact hacc_hi j (by omega)
    · intro j hj1 hj2
      by_cases hj : j = n + m
      · rw [hj, Function.update_same]
      · rw [Function.update_noteq hj, Function.update_noteq hj]
        exact hacc_err j (by omega) (by omega)
    · have hsplit : ∑ j in Finset.Ico (2 * (m + 1)) (n + (m + 1)),
          (Function.update (Function.update acc (n + m) ⟨0 + sl, 0⟩) (n + m)
            ⟨0 + sl + sr, 0⟩ j).sum =
          (∑ j in Finset.Ico (2 * m + 2) (n + m), (acc j).sum) + (0 + sl + sr) := by
        rw [show 2 * (m + 1) = 2 * m + 2 by omega,
          show n + (m + 1) = (n + m) + 1 by omega,
          Finset.sum_Ico_succ_top (by omega : 2 * m + 2 ≤ n + m)]
        congr 1
        · apply Finset.sum_congr rfl
          intro j hj
          rw [Finset.mem_Ico] at hj
          rw [Function.update_noteq (by omega), Function.update_noteq (by omega)]
        · rw [Function.update_same]
      have hold : ∑ j in Finset.Ico (2 * m) (n + m), (acc j).sum =
          sl + (sr + ∑ j in Finset.Ico (2 * m + 2) (n + m), (acc j).sum) := by
        rw [Finset.sum_eq_sum_Ico_succ_bot (by omega : 2 * m < n + m),
          Finset.sum_eq_sum_Ico_succ_bot (by omega : 2 * m + 1 < n + m),
          show 2 * m + 1 + 1 = 2 * m + 2 by omega, hsl, hsr]
      rw [hsplit]
      rw [hold] at hacc_sum
      rw [← hacc_sum]
      ring
    · have hsplit : ∑ j in Finset.Ico (2 * (m + 1)) (n + (m + 1)),
          |(Function.update (Function.update acc (n + m) ⟨0 + sl, 0⟩) (n + m)
            ⟨0 + sl + sr, 0⟩ j).sum| =
          (∑ j in Finset.Ico (2 * m + 2) (n + m), |(acc j).sum|) + |0 + sl + sr| := by
        rw [show 2 * (m + 1) = 2 * m + 2 by omega,
          show n + (m + 1) = (n + m) + 1 by omega,
          Finset.sum_Ico_succ_top (by omega : 2 * m + 2 ≤ n + m)]
        congr 1
        · apply Finset.sum_congr rfl
          intro j hj
          rw [Finset.mem_Ico] at hj
          rw [Function.update_noteq (by omega), Function.update_noteq (by omega)]
        · rw [Function.update_same]
      have hold : ∑ j in Finset.Ico (2 * m) (n + m), |(acc j).sum| =
          |sl| + (|sr| + ∑ j in Finset.Ico (2 * m + 2) (n + m), |(acc j).sum|) := by
        rw [Finset.sum_eq_sum_Ico_succ_bot (by omega : 2 * m < n + m),
          Finset.sum_eq_sum_Ico_succ_bot (by omega : 2 * m + 1 < n + m),
          show 2 * m + 1 + 1 = 2 * m + 2 by omega, hsl, hsr]
      rw [hsplit]
      rw [hold] at hacc_abs
      have htri : |0 + sl + sr| ≤ |sl| + |sr| := by
        rw [zero_add]
        exact abs_add sl sr
      linarith

/-- C2 (amended).  For `1 ≤ n ≤ 65536` and any values whose absolute sum
stays within `int64_t` (so no saturation can occur anywhere), reducing
through the tree built by `ct_reduction_init` returns exactly the value of
the sequential compensated sum `ct_comp_sum_array`, namely the exact
integer sum `∑ v i`. -/
theorem claim_C2 (nodes0 : ℕ → ct_reduction_node) (v : ℕ → Int) (n base : ℕ)
    (f g : ct_fault_flags) (h1 : 1 ≤ n) (hn : n ≤ 65536)
    (H : ∑ i in Finset.range n, |v i| ≤ INT64_MAX) :
    ∀ tr, (ct_reduction_init nodes0 n base f).2.1 = some tr →
      (ct_reduction_reduce_64 (some tr) (some v) g).1 =
        (ct_comp_sum_array (some v) n g).1 ∧
      (ct_reduction_reduce_64 (some tr) (some v) g).1 =
        ∑ i in Finset.range n, v i := by
  intro tr htr
  rw [ct_reduction_init_spec nodes0 n base f h1 hn] at htr
  simp only [Option.some.injEq] at htr
  subst htr
  have harr : (ct_comp_sum_array (some v) n g).1 = ∑ i in Finset.range n, v i := by
    rw [ct_comp_sum_array_exact v n g h1 hn H]
  rw [harr]
  rw [and_self]
  by_cases hone : n = 1
  · subst hone
    simp [ct_reduction_reduce_64, Finset.sum_range_one]
  · have h2 : 2 ≤ n := by omega
    have hgt : n > 1 := by omega
    have hnodes_spec : ∀ j, n ≤ j → j < n + (n - 1) →
        (((List.range (n - 1)).foldl
            (reduction_init_internal_step n base (n + (n - 1)))
            (reduction_init_leaf_pass nodes0 n base) : ℕ → ct_reduction_node)
          j).left_child = 2 * (j - n) ∧
        (((List.range (n - 1)).foldl
            (reduction_init_internal_step n base (n + (n - 1)))
            (reduction_init_leaf_pass nodes0 n base) : ℕ → ct_reduction_node)
          j).right_child = 2 * (j - n) + 1 := by
      intro j hj1 hj2
      have hsh := internal_fold_shape n base h2 hn
        (reduction_init_leaf_pass nodes0 n base) (n - 1) le_rfl j
      rw [if_pos ⟨hj1, hj2⟩] at hsh
      unfold node_shape at hsh
      simp only [Prod.mk.injEq] at hsh
      exact ⟨hsh.1, hsh.2.1⟩
    by_cases hsmall : n ≤ 128
    · obtain ⟨acc, hfold, _hleaf, _hhi, herr, hsum, _habs⟩ :=
        reduce_fold_exact n base v g
          ⟨(List.range (n - 1)).foldl
              (reduction_init_internal_step n base (n + (n - 1)))
              (reduction_init_leaf_pass nodes0 n base),
            n, n - 1, n + (n - 1), n + (n - 1) - 1,
            reduction_ceil_log2 n, base⟩ h2 hn rfl rfl
          hnodes_spec H (n - 1) le_rfl
      have hroot_sum : (acc (2 * (n - 1))).sum = ∑ i in Finset.range n, v i := by
        rw [show n + (n - 1) = 2 * (n - 1) + 1 by omega,
          Nat.Ico_succ_singleton, Finset.sum_singleton] at hsum
        exact hsum
      have hroot_err : (acc (2 * (n - 1))).err = 0 :=
        herr (2 * (n - 1)) le_rfl (by omega)
      have hroot : acc (2 * (n - 1)) = ⟨∑ i in Finset.range n, v i, 0⟩ := by
        cases hval : acc (2 * (n - 1))
        rw [hval] at hroot_sum hroot_err
        simp only at hroot_sum hroot_err
        rw [hroot_sum, hroot_err]
      simp only [ct_reduction_reduce_64, if_pos hgt]
      rw [if_neg (by omega : ¬ n = 0), if_neg hone,
        if_pos (by omega : n + (n - 1) ≤ 256),
        show n + (n - 1) - n = n - 1 by omega]
      rw [hfold]
      simp only
      rw [show n + (n - 1) - 1 = 2 * (n - 1) by omega, hroot]
      unfold ct_comp_finalize
      rw [safe_add64_zero]
    · simp only [ct_reduction_reduce_64, if_pos hgt]
      rw [if_neg (by omega : ¬ n = 0), if_neg hone,
        if_neg (by omega : ¬ n + (n - 1) ≤ 256)]
      rw [comp_sum_fold_exact v n {g with domain := true} H n le_rfl]
      unfold ct_comp_finalize
      rw [safe_add64_zero]

/-- Witness for C2 at `n = 3`, `v = (1, 2, 3)`: both reductions give 6. -/
theorem claim_C2_witness :
    (ct_reduction_reduce_64
        (ct_reduction_init (fun _ => ⟨0, 0, 0, 0⟩) 3 0 {}).2.1
        (some (fun i => ([1, 2, 3] : List Int).getD i 0)) {}).1 =
      (ct_comp_sum_array (some (fun i => ([1, 2, 3] : List Int).getD i 0)) 3 {}).1 ∧
    (ct_reduction_reduce_64
        (ct_reduction_init (fun _ => ⟨0, 0, 0, 0⟩) 3 0 {}).2.1
        (some (fun i => ([1, 2, 3] : List Int).getD i 0)) {}).1 =
      ∑ i in Finset.range 3, ([1, 2, 3] : List Int).getD i 0 :=
  claim_C2 (fun _ => ⟨0, 0, 0, 0⟩) (fun i => ([1, 2, 3] : List Int).getD i 0) 3 0
    {} {} (by norm_num) (by norm_num) (by decide) _
    (by rw [ct_reduction_init_spec _ 3 0 {} (by norm_num) (by norm_num)])

/-! ## Cycle-walking Feistel permutation (`src/training/permutation.c`) -/

/-- `ceil_log2` as defined in `permutation.c` (minimum 1). -/
def perm_ceil_log2 (n : ℕ) : ℕ :=
  if n ≤ 1 then 1 else bit_width (n - 1)

/-- `ct_feistel_hash`: the published splitmix-style chain, 32-bit wrapping
multiplies and adds with xor-shift finishing. -/
def ct_feistel_hash (seed epoch round value : ℕ) : ℕ :=
  let h0 := seed % 2 ^ 32
  let h1 := (h0 * 0x9E3779B9 + epoch) % 2 ^ 32
  let h2 := (h1 * 0x85EBCA6B + round) % 2 ^ 32
  let h3 := (h2 * 0xC2B2AE35 + value) % 2 ^ 32
  let h4 := h3 ^^^ (h3 >>> 16)
  let h5 := (h4 * 0x85EBCA6B) % 2 ^ 32
  h5 ^^^ (h5 >>> 13)

/-- `ct_permutation_t`. -/
structure ct_permutation where
  seed : ℕ
  epoch : ℕ
  dataset_size : ℕ
  half_bits : ℕ
  half_mask : ℕ
  range : ℕ
  initialized : Bool
  deriving Repr

/-- `ct_permutation_init` with the inlined `compute_params`: `k` is
`ceil_log2 N` rounded up to even, the range is `2^k` and the Feistel
halves are `k/2` bits wide. -/
def ct_permutation_init (seed epoch N : ℕ) : ct_error × Option ct_permutation :=
  if N = 0 ∨ N > 2 ^ 30 then (CT_ERR_DIMENSION, none)
  else
    let k0 := perm_ceil_log2 N
    let k := if k0 % 2 = 1 then k0 + 1 else k0
    (CT_OK,
      some
        { seed := seed, epoch := epoch, dataset_size := N,
          half_bits := k / 2, half_mask := 2 ^ (k / 2) - 1, range := 2 ^ k,
          initialized := true })

/-- One forward Feistel round: `(L, R) ↦ (R, L ⊕ (F(R) & half_mask))`. -/
def feistel_round_fwd (p : ct_permutation) (lr : ℕ × ℕ) (r : ℕ) : ℕ × ℕ :=
  (lr.2, lr.1 ^^^ (ct_feistel_hash p.seed p.epoch r lr.2 &&& p.half_mask))

/-- `feistel_forward`: split into halves, four rounds `r = 0..3`, rejoin. -/
def feistel_forward (p : ct_permutation) (input : ℕ) : ℕ :=
  let L := input &&& p.half_mask
  let R := (input >>> p.half_bits) &&& p.half_mask
  let lr := (List.range 4).foldl (feistel_round_fwd p) (L, R)
  (lr.2 <<< p.half_bits) ||| lr.1

/-- One inverse Feistel round: `(L, R) ↦ (R ⊕ (F(L) & half_mask), L)`. -/
def feistel_round_inv (p : ct_permutation) (lr : ℕ × ℕ) (r : ℕ) : ℕ × ℕ :=
  (lr.2 ^^^ (ct_feistel_hash p.seed p.epoch r lr.1 &&& p.half_mask), lr.1)

/-- `feistel_inverse`: the four rounds in reverse order `r = 3..0`. -/
def feistel_inverse (p : ct_permutation) (input : ℕ) : ℕ :=
  let L := input &&& p.half_mask
  let R := (input >>> p.half_bits) &&& p.half_mask
  let lr := (List.range 4).reverse.foldl (feistel_round_inv p) (L, R)
  (lr.2 <<< p.half_bits) ||| lr.1

/-- The shared cycle-walking do/while loop of `ct_permutation_apply` and
`ct_permutation_inverse`: apply `s` until the value drops below
`dataset_size`; after `range` applications give up with `domain` and fall
back to `orig % dataset_size`. -/
def cycle_walk (p : ct_permutation) (s : ℕ → ℕ) :
    ℕ → ℕ → ℕ → ct_fault_flags → ℕ × ct_fault_flags
  | 0, _, orig, f => (orig % p.dataset_size, {f with domain := true})
  | fuel + 1, cur, orig, f =>
    let i := s cur
    if i ≥ p.dataset_size then cycle_walk p s fuel i orig f
    else (i, f)

/-- `ct_permutation_apply`. -/
def ct_permutation_apply (p : ct_permutation) (index : ℕ) (f : ct_fault_flags) :
    ℕ × ct_fault_flags :=
  if ¬ p.initialized then (0, {f with domain := true})
  else if index ≥ p.dataset_size then (index % p.dataset_size, {f with domain := true})
  else if p.dataset_size = 1 then (0, f)
  else cycle_walk p (feistel_forward p) p.range index index f

/-- `ct_permutation_inverse`. -/
def ct_permutation_inverse (p : ct_permutation) (permuted_index : ℕ)
    (f : ct_fault_flags) : ℕ × ct_fault_flags :=
  if ¬ p.initialized then (0, {f with domain := true})
  else if permuted_index ≥ p.dataset_size then
    (permuted_index % p.dataset_size, {f with domain := true})
  else if p.dataset_size = 1 then (0, f)
  else cycle_walk p (feistel_inverse p) p.range permuted_index permuted_index f

theorem bit_width_lt (v : ℕ) : v < 2 ^ bit_width v := by
  induction v using Nat.strong_induction_on with
  | _ v ih =>
    unfold bit_width
    by_cases h : v = 0
    · rw [dif_pos h]
      omega
    · rw [dif_neg h]
      have hrec := ih (v / 2) (Nat.div_lt_self (Nat.pos_of_ne_zero h) one_lt_two)
      have hp : 2 ^ (bit_width (v / 2) + 1) = 2 * 2 ^ bit_width (v / 2) := by
        rw [pow_succ]
        ring
      omega

theorem and_mask_lt (p : ct_permutation) (hmask : p.half_mask = 2 ^ p.half_bits - 1)
    (x : ℕ) : x &&& p.half_mask < 2 ^ p.half_bits := by
  rw [hmask, Nat.and_pow_two_sub_one_eq_mod]
  exact Nat.mod_lt _ (Nat.pos_pow_of_pos _ (by norm_num))

theorem round_inv_fwd (p : ct_permutation) (lr : ℕ × ℕ) (r : ℕ) :
    feistel_round_inv p (feistel_round_fwd p lr r) r = lr := by
  unfold feistel_round_fwd feistel_round_inv
  simp [Nat.xor_cancel_right]

theorem round_fwd_inv (p : ct_permutation) (lr : ℕ × ℕ) (r : ℕ) :
    feistel_round_fwd p (feistel_round_inv p lr r) r = lr := by
  unfold feistel_round_fwd feistel_round_inv
  simp [Nat.xor_cancel_right]

theorem fwd_fold_inv_fold (p : ct_permutation) (s : ℕ × ℕ) :
    (List.range 4).reverse.foldl (feistel_round_inv p)
      ((List.range 4).foldl (feistel_round_fwd p) s) = s := by
  rw [show List.range 4 = [0, 1, 2, 3] from rfl]
  simp only [List.reverse_cons, List.reverse_nil, List.nil_append,
    List.cons_append, List.foldl_cons, List.foldl_nil]
  rw [round_inv_fwd, round_inv_fwd, round_inv_fwd, round_inv_fwd]

theorem inv_fold_fwd_fold (p : ct_permutation) (s : ℕ × ℕ) :
    (List.range 4).foldl (feistel_round_fwd p)
      ((List.range 4).reverse.foldl (feistel_round_inv p) s) = s := by
  rw [show List.range 4 = [0, 1, 2, 3] from rfl]
  simp only [List.reverse_cons, List.reverse_nil, List.nil_append,
    List.cons_append, List.foldl_cons, List.foldl_nil]
  rw [round_fwd_inv, round_fwd_inv, round_fwd_inv, round_fwd_inv]

theorem fwd_fold_lt (p : ct_permutation) (hmask : p.half_mask = 2 ^ p.half_bits - 1) :
    ∀ (l : List ℕ) (s : ℕ × ℕ), s.1 < 2 ^ p.half_bits → s.2 < 2 ^ p.half_bits →
      (l.foldl (feistel_round_fwd p) s).1 < 2 ^ p.half_bits ∧
      (l.foldl (feistel_round_fwd p) s).2 < 2 ^ p.half_bits := by
  intro l
  induction l with
  | nil => exact fun s h1 h2 => ⟨h1, h2⟩
  | cons r t ih =>
    intro s h1 h2
    rw [List.foldl_cons]
    exact ih _ h2 (Nat.xor_lt_two_pow h1 (and_mask_lt p hmask _))

theorem inv_fold_lt (p : ct_permutation) (hmask : p.half_mask = 2 ^ p.half_bits - 1) :
    ∀ (l : List ℕ) (s : ℕ × ℕ), s.1 < 2 ^ p.half_bits → s.2 < 2 ^ p.half_bits →
      (l.foldl (feistel_round_inv p) s).1 < 2 ^ p.half_bits ∧
      (l.foldl (feistel_round_inv p) s).2 < 2 ^ p.half_bits := by
  intro l
  induction l with
  | nil => exact fun s h1 h2 => ⟨h1, h2⟩
  | cons r t ih =>
    intro s h1 h2
    rw [List.foldl_cons]
    exact ih _ (Nat.xor_lt_two_pow h2 (and_mask_lt p hmask _)) h1

theorem encode_eq_add (hb a b : ℕ) (ha : a < 2 ^ hb) :
    (b <<< hb) ||| a = b * 2 ^ hb + a := by
  rw [Nat.shiftLeft_eq]
  calc b * 2 ^ hb ||| a = 2 ^ hb * b ||| a := by rw [mul_comm]
    _ = 2 ^ hb * b + a := (Nat.mul_add_lt_is_or ha b).symm
    _ = b * 2 ^ hb + a := by rw [mul_comm]

theorem encode_lt (hb a b : ℕ) (ha : a < 2 ^ hb) (hb2 : b < 2 ^ hb) :
    (b <<< hb) ||| a < 2 ^ (2 * hb) := by
  rw [encode_eq_add hb a b ha, two_mul, pow_add]
  calc b * 2 ^ hb + a < b * 2 ^ hb + 2 ^ hb := by omega
    _ = (b + 1) * 2 ^ hb := by ring
    _ ≤ 2 ^ hb * 2 ^ hb := Nat.mul_le_mul_right _ (by omega)

theorem decode_encode_fst (p : ct_permutation)
    (hmask : p.half_mask = 2 ^ p.half_bits - 1) (a b : ℕ)
    (ha : a < 2 ^ p.half_bits) :
    ((b <<< p.half_bits) ||| a) &&& p.half_mask = a := by
  rw [encode_eq_add _ a b ha, hmask, Nat.and_pow_two_sub_one_eq_mod, mul_comm,
    Nat.mul_add_mod, Nat.mod_eq_of_lt ha]

theorem decode_encode_snd (p : ct_permutation)
    (hmask : p.half_mask = 2 ^ p.half_bits - 1) (a b : ℕ)
    (ha : a < 2 ^ p.half_bits) (hb2 : b < 2 ^ p.half_bits) :
    (((b <<< p.half_bits) ||| a) >>> p.half_bits) &&& p.half_mask = b := by
  rw [encode_eq_add _ a b ha, Nat.shiftRight_eq_div_pow, mul_comm,
    Nat.mul_add_div (Nat.pos_pow_of_pos _ (by norm_num)),
    Nat.div_eq_of_lt ha, add_zero, hmask, Nat.and_pow_two_sub_one_eq_mod,
    Nat.mod_eq_of_lt hb2]

theorem decode_fst_lt (p : ct_permutation)
    (hmask : p.half_mask = 2 ^ p.half_bits - 1) (x : ℕ) :
    x &&& p.half_mask = x % 2 ^ p.half_bits := by
  rw [hmask, Nat.and_pow_two_sub_one_eq_mod]

theorem decode_snd_eq (p : ct_permutation)
    (hmask : p.half_mask = 2 ^ p.half_bits - 1) (x : ℕ)
    (hx : x < 2 ^ (2 * p.half_bits)) :
    (x >>> p.half_bits) &&& p.half_mask = x / 2 ^ p.half_bits := by
  have hdiv : x / 2 ^ p.half_bits < 2 ^ p.half_bits := by
    rw [Nat.div_lt_iff_lt_mul (Nat.pos_pow_of_pos _ (by norm_num))]
    rw [two_mul, pow_add] at hx
    exact hx
  rw [hmask, Nat.and_pow_two_sub_one_eq_mod, Nat.shiftRight_eq_div_pow,
    Nat.mod_eq_of_lt hdiv]

theorem feistel_forward_lt (p : ct_permutation)
    (hmask : p.half_mask = 2 ^ p.half_bits - 1) (x : ℕ) :
    feistel_forward p x < 2 ^ (2 * p.half_bits) := by
  unfold feistel_forward
  have h := fwd_fold_lt p hmask (List.range 4)
    (x &&& p.half_mask, (x >>> p.half_bits) &&& p.half_mask)
    (and_mask_lt p hmask _) (and_mask_lt p hmask _)
  exact encode_lt _ _ _ h.1 h.2

theorem feistel_inverse_lt (p : ct_permutation)
    (hmask : p.half_mask = 2 ^ p.half_bits - 1) (x : ℕ) :
    feistel_inverse p x < 2 ^ (2 * p.half_bits) := by
  unfold feistel_inverse
  have h := inv_fold_lt p hmask (List.range 4).reverse
    (x &&& p.half_mask, (x >>> p.half_bits) &&& p.half_mask)
    (and_mask_lt p hmask _) (and_mask_lt p hmask _)
  exact encode_lt _ _ _ h.1 h.2

theorem feistel_inverse_forward (p : ct_permutation)
    (hmask : p.half_mask = 2 ^ p.half_bits - 1) (x : ℕ)
    (hx : x < 2 ^ (2 * p.half_bits)) :
    feistel_inverse p (feistel_forward p x) = x := by
  simp only [feistel_forward, feistel_inverse]
  have hfold := fwd_fold_lt p hmask (List.range 4)
    (x &&& p.half_mask, (x >>> p.half_bits) &&& p.half_mask)
    (and_mask_lt p hmask _) (and_mask_lt p hmask _)
  rw [decode_encode_fst p hmask _ _ hfold.1,
    decode_encode_snd p hmask _ _ hfold.1 hfold.2]
  rw [Prod.mk.eta, fwd_fold_inv_fold]
  rw [decode_fst_lt p hmask, decode_snd_eq p hmask x hx,
    encode_eq_add _ _ _ (Nat.mod_lt _ (Nat.pos_pow_of_pos _ (by norm_num)))]
  show x / 2 ^ p.half_bits * 2 ^ p.half_bits + x % 2 ^ p.half_bits = x
  rw [mul_comm]
  exact Nat.div_add_mod x _

theorem feistel_forward_inverse (p : ct_permutation)
    (hmask : p.half_mask = 2 ^ p.half_bits - 1) (x : ℕ)
    (hx : x < 2 ^ (2 * p.half_bits)) :
    feistel_forward p (feistel_inverse p x) = x := by
  simp only [feistel_forward, feistel_inverse]
  have hfold := inv_fold_lt p hmask (List.range 4).reverse
    (x &&& p.half_mask, (x >>> p.half_bits) &&& p.half_mask)
    (and_mask_lt p hmask _) (and_mask_lt p hmask _)
  rw [decode_encode_fst p hmask _ _ hfold.1,
    decode_encode_snd p hmask _ _ hfold.1 hfold.2]
  rw [Prod.mk.eta, inv_fold_fwd_fold]
  rw [decode_fst_lt p hmask, decode_snd_eq p hmask x hx,
    encode_eq_add _ _ _ (Nat.mod_lt _ (Nat.pos_pow_of_pos _ (by norm_num)))]
  show x / 2 ^ p.half_bits * 2 ^ p.half_bits + x % 2 ^ p.half_bits = x
  rw [mul_comm]
  exact Nat.div_add_mod x _

theorem cycle_walk_spec (p : ct_permutation) (s : ℕ → ℕ) (f : ct_fault_flags) :
    ∀ (fuel : ℕ) (i orig : ℕ),
      (∃ t, 1 ≤ t ∧ t ≤ fuel ∧ s^[t] i < p.dataset_size) →
      ∃ t, 1 ≤ t ∧ t ≤ fuel ∧ s^[t] i < p.dataset_size ∧
        (∀ u, 1 ≤ u → u < t → ¬ s^[u] i < p.dataset_size) ∧
        cycle_walk p s fuel i orig f = (s^[t] i, f) := by
  intro fuel
  induction fuel with
  | zero =>
    rintro i orig ⟨t, ht1, ht2, _⟩
    omega
  | succ fuel ih =>
    rintro i orig ⟨t, ht1, ht2, ht3⟩
    by_cases hfirst : s i < p.dataset_size
    · refine ⟨1, le_rfl, by omega, by simpa using hfirst, by omega, ?_⟩
      unfold cycle_walk
      rw [if_neg (by omega : ¬ s i ≥ p.dataset_size)]
      simp
    · have ht2' : 2 ≤ t := by
        rcases Nat.lt_or_ge t 2 with h | h
        · interval_cases t
          · simp [Function.iterate_one] at ht3
            exact absurd ht3 hfirst
        · exact h
      have hshift : s^[t - 1] (s i) = s^[t] i := by
        rw [← Function.iterate_succ_apply]
        congr 1
        omega
      obtain ⟨t', h1', h2', h3', hmin', heq'⟩ := ih (s i) orig
        ⟨t - 1, by omega, by omega, by rw [hshift]; exact ht3⟩
      refine ⟨t' + 1, by omega, by omega, ?_, ?_, ?_⟩
      · rw [Function.iterate_succ_apply]
        exact h3'
      · intro u hu1 hu2
        rcases Nat.eq_or_lt_of_le hu1 with h | h
        · rw [← h]
          simpa using hfirst
        · rw [show u = (u - 1) + 1 by omega, Function.iterate_succ_apply]
          exact hmin' (u - 1) (by omega) (by omega)
      · unfold cycle_walk
        rw [if_pos (by omega : s i ≥ p.dataset_size), heq',
          Function.iterate_succ_apply]

theorem iterate_lt (R : ℕ) (s : ℕ → ℕ) (hmap : ∀ x, x < R → s x < R) (i : ℕ)
    (hi : i < R) : ∀ a, s^[a] i < R := by
  intro a
  induction a with
  | zero => simpa using hi
  | succ b ihb =>
    rw [Function.iterate_succ_apply']
    exact hmap _ ihb

theorem iterate_inj (R : ℕ) (s : ℕ → ℕ) (hmap : ∀ x, x < R → s x < R)
    (hinj : ∀ x y, x < R → y < R → s x = s y → x = y) :
    ∀ (a : ℕ) (x y : ℕ), x < R → y < R → s^[a] x = s^[a] y → x = y := by
  intro a
  induction a with
  | zero => simpa using fun x y _ _ h => h
  | succ b ihb =>
    intro x y hx hy h
    rw [Function.iterate_succ_apply, Function.iterate_succ_apply] at h
    exact hinj x y hx hy (ihb (s x) (s y) (hmap x hx) (hmap y hy) h)

theorem exists_return (R : ℕ) (s : ℕ → ℕ) (hmap : ∀ x, x < R → s x < R)
    (hinj : ∀ x y, x < R → y < R → s x = s y → x = y) (i : ℕ) (hi : i < R) :
    ∃ t, 1 ≤ t ∧ t ≤ R ∧ s^[t] i = i := by
  have hmaps : ∀ a ∈ Finset.range (R + 1), s^[a] i ∈ Finset.range R := by
    intro a _
    rw [Finset.mem_range]
    exact iterate_lt R s hmap i hi a
  obtain ⟨a, ha, b, hb, hab, heq⟩ :=
    Finset.exists_ne_map_eq_of_card_lt_of_maps_to (by simp) hmaps
  rw [Finset.mem_range] at ha hb
  rcases Nat.lt_or_ge a b with hlt | hge
  · refine ⟨b - a, by omega, by omega, ?_⟩
    apply iterate_inj R s hmap hinj a _ i
      (iterate_lt R s hmap i hi _) hi
    rw [← Function.iterate_add_apply, show a + (b - a) = b by omega]
    exact heq.symm
  · have hlt' : b < a := by omega
    refine ⟨a - b, by omega, by omega, ?_⟩
    apply iterate_inj R s hmap hinj b _ i
      (iterate_lt R s hmap i hi _) hi
    rw [← Function.iterate_add_apply, show b + (a - b) = a by omega]
    exact heq

theorem iterate_cancel (R : ℕ) (s g : ℕ → ℕ) (hmap : ∀ x, x < R → s x < R)
    (hgs : ∀ x, x < R → g (s x) = x) (i : ℕ) (hi : i < R) (t0 : ℕ) :
    ∀ u, u ≤ t0 → g^[u] (s^[t0] i) = s^[t0 - u] i := by
  intro u
  induction u with
  | zero => simp
  | succ w ihw =>
    intro hw
    rw [Function.iterate_succ_apply', ihw (by omega)]
    rw [show t0 - w = (t0 - (w + 1)) + 1 by omega, Function.iterate_succ_apply']
    exact hgs _ (iterate_lt R s hmap i hi _)

theorem perm_apply_spec (P : ct_permutation) (hinit : P.initialized = true)
    (hmask : P.half_mask = 2 ^ P.half_bits - 1)
    (hrange : P.range = 2 ^ (2 * P.half_bits))
    (hNle : P.dataset_size ≤ P.range) (hN2 : 2 ≤ P.dataset_size)
    (f : ct_fault_flags) :
    (∀ i, i < P.dataset_size →
      (ct_permutation_apply P i f).1 < P.dataset_size ∧
      (ct_permutation_apply P i f).2 = f ∧
      ct_permutation_inverse P (ct_permutation_apply P i f).1 f = (i, f)) ∧
    (∀ j, j < P.dataset_size →
      (ct_permutation_inverse P j f).1 < P.dataset_size ∧
      (ct_permutation_inverse P j f).2 = f ∧
      ct_permutation_apply P (ct_permutation_inverse P j f).1 f = (j, f)) := by
  have hRpos : 0 < 2 ^ (2 * P.half_bits) := Nat.pos_pow_of_pos _ (by norm_num)
  have smap : ∀ x, x < 2 ^ (2 * P.half_bits) →
      feistel_forward P x < 2 ^ (2 * P.half_bits) :=
    fun x _ => feistel_forward_lt P hmask x
  have gmap : ∀ x, x < 2 ^ (2 * P.half_bits) →
      feistel_inverse P x < 2 ^ (2 * P.half_bits) :=
    fun x _ => feistel_inverse_lt P hmask x
  have hgs : ∀ x, x < 2 ^ (2 * P.half_bits) →
      feistel_inverse P (feistel_forward P x) = x :=
    fun x hx => feistel_inverse_forward P hmask x hx
  have hsg : ∀ x, x < 2 ^ (2 * P.half_bits) →
      feistel_forward P (feistel_inverse P x) = x :=
    fun x hx => feistel_forward_inverse P hmask x hx
  have sinj : ∀ x y, x < 2 ^ (2 * P.half_bits) → y < 2 ^ (2 * P.half_bits) →
      feistel_forward P x = feistel_forward P y → x = y := by
    intro x y hx hy h
    rw [← hgs x hx, ← hgs y hy, h]
  have ginj : ∀ x y, x < 2 ^ (2 * P.half_bits) → y < 2 ^ (2 * P.half_bits) →
      feistel_inverse P x = feistel_inverse P y → x = y := by
    intro x y hx hy h
    rw [← hsg x hx, ← hsg y hy, h]
  have walk_pair : ∀ (s g : ℕ → ℕ),
      (∀ x, x < 2 ^ (2 * P.half_bits) → s x < 2 ^ (2 * P.half_bits)) →
      (∀ x y, x < 2 ^ (2 * P.half_bits) → y < 2 ^ (2 * P.half_bits) →
        s x = s y → x = y) →
      (∀ x, x < 2 ^ (2 * P.half_bits) → g (s x) = x) →
      ∀ i, i < P.dataset_size →
        (cycle_walk P s P.range i i f).1 < P.dataset_size ∧
        (cycle_walk P s P.range i i f).2 = f ∧
        cycle_walk P g P.range (cycle_walk P s P.range i i f).1
          (cycle_walk P s P.range i i f).1 f = (i, f) := by
    intro s g hsmap hsinj hgs' i hi
    have hiR : i < 2 ^ (2 * P.half_bits) := by omega
    obtain ⟨t, ht1, ht2, ht3⟩ :=
      exists_return (2 ^ (2 * P.half_bits)) s hsmap hsinj i hiR
    obtain ⟨t0, h01, h02, h03, h0min, h0eq⟩ :=
      cycle_walk_spec P s f P.range i i
        ⟨t, ht1, by omega, by rw [ht3]; exact hi⟩
    rw [h0eq]
    refine ⟨h03, rfl, ?_⟩
    have hcancel := iterate_cancel (2 ^ (2 * P.half_bits)) s g hsmap hgs' i hiR t0
    obtain ⟨t1, h11, h12, h13, h1min, h1eq⟩ :=
      cycle_walk_spec P g f P.range (s^[t0] i) (s^[t0] i)
        ⟨t0, h01, h02, by rw [hcancel t0 le_rfl]; simpa using hi⟩
    have ht1le : t1 ≤ t0 := by
      by_contra hgt
      exact (h1min t0 h01 (by omega)) (by rw [hcancel t0 le_rfl]; simpa using hi)
    have ht1eq : t1 = t0 := by
      rcases Nat.eq_or_lt_of_le ht1le with h | hlt
      · exact h
      · exfalso
        have hval := h13
        rw [hcancel t1 (by omega)] at hval
        exact (h0min (t0 - t1) (by omega) (by omega)) hval
    rw [h1eq, ht1eq, hcancel t0 le_rfl]
    simp
  constructor
  · intro i hi
    have happly : ct_permutation_apply P i f =
        cycle_walk P (feistel_forward P) P.range i i f := by
      unfold ct_permutation_apply
      rw [hinit]
      rw [if_neg (by simp), if_neg (by omega), if_neg (by omega)]
    have hinv : ∀ j, j < P.dataset_size →
        ct_permutation_inverse P j f =
          cycle_walk P (feistel_inverse P) P.range j j f := by
      intro j hj
      unfold ct_permutation_inverse
      rw [hinit]
      rw [if_neg (by simp), if_neg (by omega), if_neg (by omega)]
    obtain ⟨hw1, hw2, hw3⟩ :=
      walk_pair (feistel_forward P) (feistel_inverse P) smap sinj hgs i hi
    rw [happly]
    exact ⟨hw1, hw2, by rw [hinv _ hw1]; exact hw3⟩
  · intro j hj
    have hinv : ct_permutation_inverse P j f =
        cycle_walk P (feistel_inverse P) P.range j j f := by
      unfold ct_permutation_inverse
      rw [hinit]
      rw [if_neg (by simp), if_neg (by omega), if_neg (by omega)]
    have happly : ∀ i, i < P.dataset_size →
        ct_permutation_apply P i f =
          cycle_walk P (feistel_forward P) P.range i i f := by
      intro i hi
      unfold ct_permutation_apply
      rw [hinit]
      rw [if_neg (by simp), if_neg (by omega), if_neg (by omega)]
    obtain ⟨hw1, hw2, hw3⟩ :=
      walk_pair (feistel_inverse P) (feistel_forward P) gmap ginj hsg j hj
    rw [hinv]
    exact ⟨hw1, hw2, by rw [happly _ hw1]; exact hw3⟩

theorem perm_ceil_log2_bound (N : ℕ) : N ≤ 2 ^ perm_ceil_log2 N := by
  unfold perm_ceil_log2
  by_cases h : N ≤ 1
  · rw [if_pos h]
    have : (2 : ℕ) ^ 1 = 2 := by norm_num
    omega
  · rw [if_neg h]
    have := bit_width_lt (N - 1)
    omega

/-- C1.  For every `(seed, epoch, N)` with `1 ≤ N ≤ 10^5`,
`ct_permutation_init` succeeds, and on the resulting context
`ct_permutation_apply` maps `[0, N)` into `[0, N)` with the fault record
untouched, `ct_permutation_inverse` inverts it on both sides (again with no
fault), and the map `i ↦ apply(i)` is a bijection of `[0, N)`. -/
theorem claim_C1 (seed epoch N : ℕ) (f : ct_fault_flags) (h1 : 1 ≤ N)
    (hN : N ≤ 100000) :
    ∃ P, ct_permutation_init seed epoch N = (CT_OK, some P) ∧
      (∀ i, i < N → (ct_permutation_apply P i f).1 < N ∧
        (ct_permutation_apply P i f).2 = f) ∧
      (∀ i, i < N →
        ct_permutation_inverse P (ct_permutation_apply P i f).1 f = (i, f)) ∧
      (∀ j, j < N →
        ct_permutation_apply P (ct_permutation_inverse P j f).1 f = (j, f)) ∧
      Set.BijOn (fun i => (ct_permutation_apply P i f).1)
        (Set.Iio N) (Set.Iio N) := by
  have hinit : ct_permutation_init seed epoch N =
      (CT_OK,
        some
          { seed := seed, epoch := epoch, dataset_size := N,
            half_bits := (if perm_ceil_log2 N % 2 = 1 then perm_ceil_log2 N + 1
              else perm_ceil_log2 N) / 2,
            half_mask := 2 ^ ((if perm_ceil_log2 N % 2 = 1 then perm_ceil_log2 N + 1
              else perm_ceil_log2 N) / 2) - 1,
            range := 2 ^ (if perm_ceil_log2 N % 2 = 1 then perm_ceil_log2 N + 1
              else perm_ceil_log2 N),
            initialized := true }) := by
    unfold ct_permutation_init
    rw [if_neg (by push_neg; constructor <;> omega)]
  refine ⟨_, hinit, ?_⟩
  obtain ⟨k0, hk0⟩ : ∃ k0, perm_ceil_log2 N = k0 := ⟨_, rfl⟩
  rw [hk0]
  have hk0N : N ≤ 2 ^ k0 := hk0 ▸ perm_ceil_log2_bound N
  obtain ⟨k, hk⟩ : ∃ k, (if k0 % 2 = 1 then k0 + 1 else k0) = k := ⟨_, rfl⟩
  rw [hk]
  have hkeven : 2 * (k / 2) = k := by
    rcases Nat.mod_two_eq_zero_or_one k0 with h | h
    · rw [if_neg (by omega)] at hk
      omega
    · rw [if_pos h] at hk
      omega
  have hk0k : k0 ≤ k := by
    rcases Nat.mod_two_eq_zero_or_one k0 with h | h
    · rw [if_neg (by omega)] at hk
      omega
    · rw [if_pos h] at hk
      omega
  have hNle : N ≤ 2 ^ k :=
    le_trans hk0N (Nat.pow_le_pow_right (by norm_num) hk0k)
  by_cases hone : N = 1
  · subst hone
    have happ : ∀ i, i < 1 → ct_permutation_apply
        { seed := seed, epoch := epoch, dataset_size := 1,
          half_bits := k / 2, half_mask := 2 ^ (k / 2) - 1, range := 2 ^ k,
          initialized := true } i f = (0, f) := by
      intro i hi
      have : i = 0 := by omega
      subst this
      unfold ct_permutation_apply
      simp
    have hinv : ∀ j, j < 1 → ct_permutation_inverse
        { seed := seed, epoch := epoch, dataset_size := 1,
          half_bits := k / 2, half_mask := 2 ^ (k / 2) - 1, range := 2 ^ k,
          initialized := true } j f = (0, f) := by
      intro j hj
      have : j = 0 := by omega
      subst this
      unfold ct_permutation_inverse
      simp
    refine ⟨?_, ?_, ?_, ?_⟩
    · intro i hi
      rw [happ i hi]
      exact ⟨by omega, rfl⟩
    · intro i hi
      rw [happ i hi]
      have h0 : (0 : ℕ) < 1 := by omega
      rw [hinv 0 h0]
      have : i = 0 := by omega
      rw [this]
    · intro j hj
      rw [hinv j hj]
      have h0 : (0 : ℕ) < 1 := by omega
      rw [happ 0 h0]
      have : j = 0 := by omega
      rw [this]
    · refine ⟨?_, ?_, ?_⟩
      · intro i hi
        rw [Set.mem_Iio] at hi ⊢
        simp only [happ i hi]
        omega
      · intro x hx y hy _
        rw [Set.mem_Iio] at hx hy
        omega
      · intro j hj
        rw [Set.mem_Iio] at hj
        refine ⟨0, by rw [Set.mem_Iio]; omega, ?_⟩
        have h0 : (0 : ℕ) < 1 := by omega
        simp only [happ 0 h0]
        omega
  · have hN2 : 2 ≤ N := by omega
    have hspec := perm_apply_spec
      { seed := seed, epoch := epoch, dataset_size := N,
        half_bits := k / 2, half_mask := 2 ^ (k / 2) - 1, range := 2 ^ k,
        initialized := true } rfl rfl
      (by show (2 : ℕ) ^ k = 2 ^ (2 * (k / 2)); rw [hkeven])
      (by show N ≤ 2 ^ k; exact hNle) hN2 f
    refine ⟨fun i hi => ⟨(hspec.1 i hi).1, (hspec.1 i hi).2.1⟩,
      fun i hi => (hspec.1 i hi).2.2,
      fun j hj => (hspec.2 j hj).2.2, ?_, ?_, ?_⟩
    · intro i hi
      rw [Set.mem_Iio] at hi ⊢
      simp only
      exact (hspec.1 i hi).1
    · intro x hx y hy hxy
      rw [Set.mem_Iio] at hx hy
      have h1' := (hspec.1 x hx).2.2
      have h2' := (hspec.1 y hy).2.2
      simp only at hxy
      rw [hxy] at h1'
      exact congrArg Prod.fst (h1'.symm.trans h2')
    · intro j hj
      rw [Set.mem_Iio] at hj
      refine ⟨(ct_permutation_inverse
          { seed := seed, epoch := epoch, dataset_size := N,
            half_bits := k / 2, half_mask := 2 ^ (k / 2) - 1, range := 2 ^ k,
            initialized := true } j f).1, ?_, ?_⟩
      · rw [Set.mem_Iio]
        exact (hspec.2 j hj).1
      · simp only
        rw [(hspec.2 j hj).2.2]

/-- Witness for C1 at `(seed, epoch, N) = (42, 0, 97)`. -/
theorem claim_C1_witness :
    ∃ P, ct_permutation_init 42 0 97 = (CT_OK, some P) ∧
      (∀ i, i < 97 → (ct_permutation_apply P i {}).1 < 97 ∧
        (ct_permutation_apply P i {}).2 = ({} : ct_fault_flags)) ∧
      (∀ i, i < 97 →
        ct_permutation_inverse P (ct_permutation_apply P i {}).1 {} = (i, {})) ∧
      (∀ j, j < 97 →
        ct_permutation_apply P (ct_permutation_inverse P j {}).1 {} = (j, {})) ∧
      Set.BijOn (fun i => (ct_permutation_apply P i {}).1)
        (Set.Iio 97) (Set.Iio 97) :=
  claim_C1 42 0 97 {} (by norm_num) (by norm_num)

/-! ## SHA-256 and the Merkle training chain (`src/audit/merkle.c`)

Bytes are naturals below 256; a hash is a 32-byte list.  The claims below
never depend on hash values, only on control flow and state updates, so the
digest functions are carried through the embedding opaquely. -/

/-- 32-bit right rotation (`ROTR`). -/
def rotr32 (x n : ℕ) : ℕ :=
  ((x >>> n) ||| (x <<< (32 - n))) % 2 ^ 32

/-- The SHA-256 round constants `sha256_k`. -/
def sha256_k : List ℕ :=
  [1116352408, 1899447441, 3049323471, 3921009573,
   961987163, 1508970993, 2453635748, 2870763221,
   3624381080, 310598401, 607225278, 1426881987,
   1925078388, 2162078206, 2614888103, 3248222580,
   3835390401, 4022224774, 264347078, 604807628,
   770255983, 1249150122, 1555081692, 1996064986,
   2554220882, 2821834349, 2952996808, 3210313671,
   3336571891, 3584528711, 113926993, 338241895,
   666307205, 773529912, 1294757372, 1396182291,
   1695183700, 1986661051, 2177026350, 2456956037,
   2730485921, 2820302411, 3259730800, 3345764771,
   3516065817, 3600352804, 4094571909, 275423344,
   430227734, 506948616, 659060556, 883997877,
   958139571, 1322822218, 1537002063, 1747873779,
   1955562222, 2024104815, 2227730452, 2361852424,
   2428436474, 2756734187, 3204031479, 3329325298]

/-- The eight 32-bit words of a SHA-256 state. -/
structure sha256_words where
  s0 : ℕ
  s1 : ℕ
  s2 : ℕ
  s3 : ℕ
  s4 : ℕ
  s5 : ℕ
  s6 : ℕ
  s7 : ℕ
  deriving Repr

/-- Message schedule `w[i]` of one 64-byte block (big-endian loads for
`i < 16`, the `SIG0`/`SIG1` recurrence beyond, all mod `2^32`). -/
def sha_w (data : List ℕ) (i : ℕ) : ℕ :=
  if h : i < 16 then
    (data.getD (i * 4) 0 <<< 24) ||| (data.getD (i * 4 + 1) 0 <<< 16) |||
      (data.getD (i * 4 + 2) 0 <<< 8) ||| data.getD (i * 4 + 3) 0
  else
    ((rotr32 (sha_w data (i - 2)) 17 ^^^ rotr32 (sha_w data (i - 2)) 19 ^^^
        (sha_w data (i - 2) >>> 10)) +
      sha_w data (i - 7) +
      (rotr32 (sha_w data (i - 15)) 7 ^^^ rotr32 (sha_w data (i - 15)) 18 ^^^
        (sha_w data (i - 15) >>> 3)) +
      sha_w data (i - 16)) % 2 ^ 32
termination_by i
decreasing_by all_goals omega

/-- `sha256_transform`: 64 compression rounds then feed-forward addition. -/
def sha256_transform (st : sha256_words) (data : List ℕ) : sha256_words :=
  let r := (List.range 64).foldl
    (fun (v : ℕ × ℕ × ℕ × ℕ × ℕ × ℕ × ℕ × ℕ) i =>
      let (a, b, c, d, e, f, g, h) := v
      let t1 := (h + (rotr32 e 6 ^^^ rotr32 e 11 ^^^ rotr32 e 25) +
        ((e &&& f) ^^^ ((2 ^ 32 - 1 - e) &&& g)) + sha256_k.getD i 0 +
        sha_w data i) % 2 ^ 32
      let t2 := ((rotr32 a 2 ^^^ rotr32 a 13 ^^^ rotr32 a 22) +
        ((a &&& b) ^^^ (a &&& c) ^^^ (b &&& c))) % 2 ^ 32
      (((t1 + t2) % 2 ^ 32), a, b, c, ((d + t1) % 2 ^ 32), e, f, g))
    (st.s0, st.s1, st.s2, st.s3, st.s4, st.s5, st.s6, st.s7)
  { s0 := (st.s0 + r.1) % 2 ^ 32,
    s1 := (st.s1 + r.2.1) % 2 ^ 32,
    s2 := (st.s2 + r.2.2.1) % 2 ^ 32,
    s3 := (st.s3 + r.2.2.2.1) % 2 ^ 32,
    s4 := (st.s4 + r.2.2.2.2.1) % 2 ^ 32,
    s5 := (st.s5 + r.2.2.2.2.2.1) % 2 ^ 32,
    s6 := (st.s6 + r.2.2.2.2.2.2.1) % 2 ^ 32,
    s7 := (st.s7 + r.2.2.2.2.2.2.2) % 2 ^ 32 }

/-- `ct_sha256_ctx_t`: state words, total byte count, pending partial
block (invariant: `buffer.length = count % 64`). -/
structure ct_sha256_ctx where
  state : sha256_words
  count : ℕ
  buffer : List ℕ

/-- `ct_sha256_init`. -/
def ct_sha256_init : ct_sha256_ctx :=
  { state :=
      { s0 := 0x6a09e667, s1 := 0xbb67ae85, s2 := 0x3c6ef372, s3 := 0xa54ff53a,
        s4 := 0x510e527f, s5 := 0x9b05688c, s6 := 0x1f83d9ab, s7 := 0x5be0cd19 },
    count := 0, buffer := [] }

/-- Consume complete 64-byte blocks from the front of a byte list. -/
def sha256_process (st : sha256_words) (bytes : List ℕ) :
    sha256_words × List ℕ :=
  if h : 64 ≤ bytes.length then
    sha256_process (sha256_transform st (bytes.take 64)) (bytes.drop 64)
  else (st, bytes)
termination_by bytes.length
decreasing_by simp only [List.length_drop]; omega

/-- `ct_sha256_update`: the C buffer-fill plus full-block loop amounts to
processing `buffer ++ data` in 64-byte blocks and keeping the remainder. -/
def ct_sha256_update (ctx : ct_sha256_ctx) (data : List ℕ) : ct_sha256_ctx :=
  let pr := sha256_process ctx.state (ctx.buffer ++ data)
  { state := pr.1, count := ctx.count + data.length, buffer := pr.2 }

/-- Big-endian bytes of a 64-bit value (the length field of the padding). -/
def u64_be (v : ℕ) : List ℕ :=
  [v >>> 56 % 256, v >>> 48 % 256, v >>> 40 % 256, v >>> 32 % 256,
   v >>> 24 % 256, v >>> 16 % 256, v >>> 8 % 256, v % 256]

/-- Big-endian bytes of the eight state words (`ct_sha256_final`'s output
loop). -/
def sha256_output (st : sha256_words) : List ℕ :=
  [st.s0 >>> 24 % 256, st.s0 >>> 16 % 256, st.s0 >>> 8 % 256, st.s0 % 256,
   st.s1 >>> 24 % 256, st.s1 >>> 16 % 256, st.s1 >>> 8 % 256, st.s1 % 256,
   st.s2 >>> 24 % 256, st.s2 >>> 16 % 256, st.s2 >>> 8 % 256, st.s2 % 256,
   st.s3 >>> 24 % 256, st.s3 >>> 16 % 256, st.s3 >>> 8 % 256, st.s3 % 256,
   st.s4 >>> 24 % 256, st.s4 >>> 16 % 256, st.s4 >>> 8 % 256, st.s4 % 256,
   st.s5 >>> 24 % 256, st.s5 >>> 16 % 256, st.s5 >>> 8 % 256, st.s5 % 256,
   st.s6 >>> 24 % 256, st.s6 >>> 16 % 256, st.s6 >>> 8 % 256, st.s6 % 256,
   st.s7 >>> 24 % 256, st.s7 >>> 16 % 256, st.s7 >>> 8 % 256, st.s7 % 256]

/-- `ct_sha256_final`: append `0x80`, flush an extra block when fewer than
eight bytes of room remain, zero-pad to 56, append the bit count
big-endian, transform, and emit the state big-endian. -/
def ct_sha256_final (ctx : ct_sha256_ctx) : List ℕ :=
  let buf_idx := ctx.count % 64
  let bit_count := (ctx.count * 8) % 2 ^ 64
  let b1 := ctx.buffer ++ [0x80]
  let st1 :=
    if buf_idx + 1 > 56 then
      sha256_transform ctx.state (b1 ++ List.replicate (64 - (buf_idx + 1)) 0)
    else ctx.state
  let b2 := if buf_idx + 1 > 56 then ([] : List ℕ) else b1
  sha256_output
    (sha256_transform st1 (b2 ++ List.replicate (56 - b2.length) 0 ++ u64_be bit_count))

/-- `ct_sha256`: one-shot digest. -/
def ct_sha256 (data : List ℕ) : List ℕ :=
  ct_sha256_final (ct_sha256_update ct_sha256_init data)

/-! ## Canonical tensor serialization (hash path only) -/

/-- `ct_tensor_t` (Q16.16 variant): caller-owned data modelled as an index
function, four dims/strides slots. -/
structure ct_tensor where
  data : ℕ → Int
  dims : ℕ → ℕ
  strides : ℕ → ℕ
  ndims : ℕ
  total_size : ℕ

/-- The descending stride check of `ct_tensor_is_contiguous`: visit
dimension `i-1` with the expected stride, then recurse with
`expected * dims[i-1]`. -/
def contiguous_from (dims strides : ℕ → ℕ) : ℕ → ℕ → Bool
  | 0, _ => true
  | i + 1, expected =>
    if strides i ≠ expected then false
    else contiguous_from dims strides i (expected * dims i)

/-- `ct_tensor_is_contiguous` (a null tensor or `ndims == 0` counts as
contiguous). -/
def ct_tensor_is_contiguous (t : ct_tensor) : Bool :=
  if t.ndims = 0 then true
  else contiguous_from t.dims t.strides t.ndims 1

/-- `write_u32_le`. -/
def write_u32_le (v : ℕ) : List ℕ :=
  [v % 256, v / 2 ^ 8 % 256, v / 2 ^ 16 % 256, v / 2 ^ 24 % 256]

/-- `write_u64_le`. -/
def write_u64_le (v : ℕ) : List ℕ :=
  [v % 256, v / 2 ^ 8 % 256, v / 2 ^ 16 % 256, v / 2 ^ 24 % 256,
   v / 2 ^ 32 % 256, v / 2 ^ 40 % 256, v / 2 ^ 48 % 256, v / 2 ^ 56 % 256]

/-- `write_i32_le`: two's-complement cast then little-endian. -/
def write_i32_le (v : Int) : List ℕ :=
  write_u32_le (v % 2 ^ 32).toNat

/-- `ct_tensor_hash`: header (version 1, dtype `CT_DTYPE_Q16_16 = 0`,
ndims, four dims, total size) then each element, streamed through SHA-256;
non-contiguous tensors are refused with `CT_ERR_STATE`. -/
def ct_tensor_hash (t : ct_tensor) : Except ct_error (List ℕ) :=
  if ¬ ct_tensor_is_contiguous t then .error CT_ERR_STATE
  else
    let header := write_u32_le 1 ++ write_u32_le 0 ++ write_u32_le t.ndims ++
      ((List.range 4).foldr (fun i acc => write_u32_le (t.dims i) ++ acc) []) ++
      write_u64_le t.total_size
    let c1 := ct_sha256_update ct_sha256_init header
    let c2 := (List.range t.total_size).foldl
      (fun c i => ct_sha256_update c (write_i32_le (t.data i))) c1
    .ok (ct_sha256_final c2)

/-! ## Merkle chain state and checkpoints -/

/-- `ct_merkle_ctx_t`. -/
structure ct_merkle_ctx where
  current_hash : List ℕ
  initial_hash : List ℕ
  step : ℕ
  epoch : ℕ
  initialized : Bool
  faulted : Bool

/-- `ct_training_step_t`. -/
structure ct_training_step where
  prev_hash : List ℕ
  weights_hash : List ℕ
  batch_hash : List ℕ
  step : ℕ
  step_hash : List ℕ

/-- `compute_batch_hash`: SHA-256 over the little-endian `u32` indices. -/
def compute_batch_hash (indices : List ℕ) : List ℕ :=
  ct_sha256_final
    (indices.foldl (fun c idx => ct_sha256_update c (write_u32_le idx)) ct_sha256_init)

/-- `ct_merkle_step`.  Null pointers become `none` arguments (a null `ctx`
has no state to speak about and is outside the embedding); the step record
is always produced on success (C only copies it out when `step_out` is
non-null). -/
def ct_merkle_step (ctx : ct_merkle_ctx) (weights : Option ct_tensor)
    (batch_indices : Option (List ℕ)) (faults : Option ct_fault_flags) :
    ct_error × ct_merkle_ctx × Option ct_training_step :=
  match weights, batch_indices with
  | some w, some b =>
    if ¬ ctx.initialized then (CT_ERR_STATE, ctx, none)
    else if (match faults with
        | some fl => ct_has_fault fl
        | none => false) then
      (CT_ERR_FAULT, {ctx with faulted := true}, none)
    else if ctx.faulted then (CT_ERR_FAULT, ctx, none)
    else
      match ct_tensor_hash w with
      | .error e => (e, ctx, none)
      | .ok wh =>
        let bh := compute_batch_hash b
        let sha := ct_sha256_update
          (ct_sha256_update
            (ct_sha256_update (ct_sha256_update ct_sha256_init ctx.current_hash) wh)
            bh)
          (write_u64_le ctx.step)
        let new_hash := ct_sha256_final sha
        (CT_OK,
          {ctx with current_hash := new_hash, step := (ctx.step + 1) % 2 ^ 64},
          some ⟨ctx.current_hash, wh, bh, ctx.step, new_hash⟩)
  | _, _ => (CT_ERR_NULL, ctx, none)

/-- `ct_checkpoint_t`. -/
structure ct_checkpoint where
  step : ℕ
  epoch : ℕ
  merkle_hash : List ℕ
  weights_hash : List ℕ
  config_hash : List ℕ
  prng_state : ct_prng
  timestamp : ℕ
  version : ℕ
  fault_flags : ct_fault_flags

/-- `ct_checkpoint_create` (`CT_CHECKPOINT_VERSION = 2`); `time(NULL)` is
an external input and becomes the `now` parameter.  A faulted chain is
recorded by setting the `overflow` bit of the otherwise cleared flags. -/
def ct_checkpoint_create (ctx : Option ct_merkle_ctx) (prng : Option ct_prng)
    (epoch : ℕ) (weights : Option ct_tensor)
    (config_hash : Option (List ℕ)) (now : ℕ) :
    ct_error × Option ct_checkpoint :=
  match ctx, prng, weights, config_hash with
  | some c, some pr, some w, some ch =>
    match ct_tensor_hash w with
    | .error e => (e, none)
    | .ok wh =>
      let flags : ct_fault_flags :=
        if c.faulted then {ct_clear_faults with overflow := true}
        else ct_clear_faults
      (CT_OK, some ⟨c.step, epoch, c.current_hash, wh, ch, pr, now, 2, flags⟩)
  | _, _, _, _ => (CT_ERR_NULL, none)

/-- `ct_merkle_restore`. -/
def ct_merkle_restore (ctx : ct_merkle_ctx) (checkpoint : Option ct_checkpoint) :
    ct_error × ct_merkle_ctx :=
  match checkpoint with
  | none => (CT_ERR_NULL, ctx)
  | some cp =>
    (CT_OK,
      {ctx with
        current_hash := cp.merkle_hash
        step := cp.step
        epoch := cp.epoch
        initialized := true
        faulted := ct_has_fault cp.fault_flags})

theorem ct_tensor_hash_error (t : ct_tensor) (e : ct_error)
    (h : ct_tensor_hash t = .error e) : e = CT_ERR_STATE := by
  unfold ct_tensor_hash at h
  split at h
  · injection h with h
    exact h.symm
  · exact absurd h (by simp)

/-- C3. `ct_merkle_step` commits exactly on `CT_OK`: every non-OK return
(null argument, uninitialized context, faulted input record, already
faulted chain, or a non-contiguous weights tensor) leaves `current_hash`
and `step` untouched, a `CT_OK` return advances the step counter (hence
changes the context), and an initialized chain whose `faulted` flag is set
answers every non-null call with `CT_ERR_FAULT` without any state change
(only `ct_merkle_restore` can clear the flag). -/
theorem claim_C3 :
    (∀ (ctx : ct_merkle_ctx) (weights : Option ct_tensor)
        (batch : Option (List ℕ)) (faults : Option ct_fault_flags),
      ((ct_merkle_step ctx weights batch faults).1 ≠ CT_OK →
        (ct_merkle_step ctx weights batch faults).2.1.current_hash =
          ctx.current_hash ∧
        (ct_merkle_step ctx weights batch faults).2.1.step = ctx.step) ∧
      ((ct_merkle_step ctx weights batch faults).1 = CT_OK →
        (ct_merkle_step ctx weights batch faults).2.1.step =
          (ctx.step + 1) % 2 ^ 64 ∧
        (ct_merkle_step ctx weights batch faults).2.1.step ≠ ctx.step)) ∧
    (∀ (ctx : ct_merkle_ctx) (w : ct_tensor) (b : List ℕ)
        (faults : Option ct_fault_flags),
      ctx.initialized = true → ctx.faulted = true →
      ct_merkle_step ctx (some w) (some b) faults = (CT_ERR_FAULT, ctx, none)) := by
  have hfaultstep : ∀ (ctx : ct_merkle_ctx) (w : ct_tensor) (b : List ℕ)
      (faults : Option ct_fault_flags),
      ctx.initialized = true → ctx.faulted = true →
      ct_merkle_step ctx (some w) (some b) faults = (CT_ERR_FAULT, ctx, none) := by
    intro ctx w b faults hinit hfaulted
    obtain ⟨ch, ih, st, ep, ini, fa⟩ := ctx
    simp only at hinit hfaulted
    subst hinit
    subst hfaulted
    by_cases hf : (match faults with
      | some fl => ct_has_fault fl
      | none => false) = true
    · simp [ct_merkle_step, hf]
    · simp [ct_merkle_step, hf]
  refine ⟨?_, hfaultstep⟩
  intro ctx weights batch faults
  rcases weights with _ | w
  · constructor
    · intro _
      exact ⟨rfl, rfl⟩
    · intro hok
      exact absurd hok (by simp [ct_merkle_step])
  rcases batch with _ | b
  · constructor
    · intro _
      exact ⟨rfl, rfl⟩
    · intro hok
      exact absurd hok (by simp [ct_merkle_step])
  by_cases hinit : ctx.initialized = true
  · by_cases hf : (match faults with
      | some fl => ct_has_fault fl
      | none => false) = true
    · have heq : ct_merkle_step ctx (some w) (some b) faults =
          (CT_ERR_FAULT, {ctx with faulted := true}, none) := by
        simp [ct_merkle_step, hinit, hf]
      rw [heq]
      exact ⟨fun _ => ⟨rfl, rfl⟩, fun hok => absurd hok (by simp)⟩
    · by_cases hflt : ctx.faulted = true
      · have heq : ct_merkle_step ctx (some w) (some b) faults =
            (CT_ERR_FAULT, ctx, none) := by
          simp [ct_merkle_step, hinit, hf, hflt]
        rw [heq]
        exact ⟨fun _ => ⟨rfl, rfl⟩, fun hok => absurd hok (by simp)⟩
      · cases hh : ct_tensor_hash w with
        | error er =>
          have heq : ct_merkle_step ctx (some w) (some b) faults =
              (er, ctx, none) := by
            simp [ct_merkle_step, hinit, hf, hflt, hh]
          rw [heq]
          have her : er = CT_ERR_STATE := ct_tensor_hash_error w er hh
          subst her
          exact ⟨fun _ => ⟨rfl, rfl⟩, fun hok => absurd hok (by simp)⟩
        | ok wh =>
          have heq : ct_merkle_step ctx (some w) (some b) faults =
              (CT_OK,
                {ctx with
                  current_hash := ct_sha256_final (ct_sha256_update
                    (ct_sha256_update
                      (ct_sha256_update
                        (ct_sha256_update ct_sha256_init ctx.current_hash) wh)
                      (compute_batch_hash b))
                    (write_u64_le ctx.step))
                  step := (ctx.step + 1) % 2 ^ 64},
                some ⟨ctx.current_hash, wh, compute_batch_hash b, ctx.step,
                  ct_sha256_final (ct_sha256_update
                    (ct_sha256_update
                      (ct_sha256_update
                        (ct_sha256_update ct_sha256_init ctx.current_hash) wh)
                      (compute_batch_hash b))
                    (write_u64_le ctx.step))⟩) := by
            simp [ct_merkle_step, hinit, hf, hflt, hh]
          rw [heq]
          refine ⟨fun hne => absurd rfl hne, fun _ => ⟨rfl, ?_⟩⟩
          simp only
          omega
  · have heq : ct_merkle_step ctx (some w) (some b) faults =
        (CT_ERR_STATE, ctx, none) := by
      simp [ct_merkle_step, hinit]
    rw [heq]
    exact ⟨fun _ => ⟨rfl, rfl⟩, fun hok => absurd hok (by simp)⟩

/-- Witness for C3: a faulted, initialized chain rejects a well-formed step
with `CT_ERR_FAULT` and is left unchanged. -/
theorem claim_C3_witness :
    ct_merkle_step
        ⟨List.replicate 32 1, List.replicate 32 1, 5, 9, true, true⟩
        (some ⟨fun _ => 0, fun _ => 0, fun _ => 0, 0, 0⟩) (some [1, 2]) none =
      (CT_ERR_FAULT,
        ⟨List.replicate 32 1, List.replicate 32 1, 5, 9, true, true⟩, none) :=
  claim_C3.2 ⟨List.replicate 32 1, List.replicate 32 1, 5, 9, true, true⟩
    ⟨fun _ => 0, fun _ => 0, fun _ => 0, 0, 0⟩ [1, 2] none rfl rfl

/-- C9. If `ct_checkpoint_create` returns `CT_OK` with a checkpoint, then
restoring that checkpoint into any context yields `CT_OK` and a context
whose `current_hash` and `step` equal the checkpointed chain's and whose
`epoch` is the epoch passed to `create`. -/
theorem claim_C9 (ctx : ct_merkle_ctx) (prng : ct_prng) (e : ℕ)
    (w : ct_tensor) (ch : List ℕ) (now : ℕ) (cp : ct_checkpoint)
    (ctx2 : ct_merkle_ctx)
    (h : ct_checkpoint_create (some ctx) (some prng) e (some w) (some ch) now =
      (CT_OK, some cp)) :
    (ct_merkle_restore ctx2 (some cp)).1 = CT_OK ∧
    (ct_merkle_restore ctx2 (some cp)).2.current_hash = ctx.current_hash ∧
    (ct_merkle_restore ctx2 (some cp)).2.step = ctx.step ∧
    (ct_merkle_restore ctx2 (some cp)).2.epoch = e := by
  unfold ct_checkpoint_create at h
  cases hh : ct_tensor_hash w with
  | error er =>
    simp only [hh] at h
    exact absurd h (by simp)
  | ok wh =>
    simp only [hh, Prod.mk.injEq, Option.some.injEq, true_and] at h
    subst h
    exact ⟨rfl, rfl, rfl, rfl⟩

/-- Witness for C9 at a concrete zero-dimensional weights tensor. -/
theorem claim_C9_witness :
    ∃ cp, ct_checkpoint_create
        (some ⟨List.replicate 32 1, List.replicate 32 1, 5, 9, true, false⟩)
        (some ⟨1, 2, 3⟩) 4 (some ⟨fun _ => 0, fun _ => 0, fun _ => 0, 0, 0⟩)
        (some (List.replicate 32 2)) 7 = (CT_OK, some cp) ∧
      (ct_merkle_restore ⟨[], [], 0, 0, false, false⟩ (some cp)).2.step = 5 ∧
      (ct_merkle_restore ⟨[], [], 0, 0, false, false⟩ (some cp)).2.epoch = 4 :=
  ⟨_, rfl,
    (claim_C9 ⟨List.replicate 32 1, List.replicate 32 1, 5, 9, true, false⟩
      ⟨1, 2, 3⟩ 4 ⟨fun _ => 0, fun _ => 0, fun _ => 0, 0, 0⟩
      (List.replicate 32 2) 7 _ ⟨[], [], 0, 0, false, false⟩ rfl).2.2.1,
    (claim_C9 ⟨List.replicate 32 1, List.replicate 32 1, 5, 9, true, false⟩
      ⟨1, 2, 3⟩ 4 ⟨fun _ => 0, fun _ => 0, fun _ => 0, 0, 0⟩
      (List.replicate 32 2) 7 _ ⟨[], [], 0, 0, false, false⟩ rfl).2.2.2⟩
